import Mathlib

/-!
Verification of the Hyprland config parser core
(`src/lib/hyprland-parser.ts` of `amanat361/omarchy-gui`).

The embedding models the parse tree (`ParsedNode` variants), the
query/mutation API (`findProperty`, `findCommentedProperty`,
`findPropertyOrCommented`, `updateOrAddProperty`,
`togglePropertyComment`, `setPropertyEnabled`, `findBlock`,
`ensureBlock`), the tokenizer, the recursive-descent parser and the
serializer.

Modelling conventions:
* JavaScript objects mutated in place become functions returning the
  updated list of children; `array.indexOf(firstMatch)` is the index of
  the first matching child, embedded as `findPropertyIdx` /
  `findCommentedPropertyIdx`.
* A JS value `string | number | boolean` becomes `Value`.  A numeric
  value keeps its source text (`Value.num raw`): none of the verified
  properties depend on IEEE-754 normalization of the payload, only on
  the (purely syntactic) numeric-classification test `isNumericStr`,
  which models `!isNaN(Number(s))`.
* `comment?: string` becomes `Option String`; JavaScript truthiness of
  the comment field (empty string is falsy) is modelled explicitly where
  the source relies on it.
-/

namespace OmarchyGui

/-- A parsed property value: `string | number | boolean`.
A number keeps the raw source text it was created from. -/
inductive Value where
  | str (s : String)
  | num (raw : String)
  | bool (b : Bool)
deriving DecidableEq

/-- A node of the parse tree: `ParsedComment`, `ParsedProperty`,
`ParsedCommentedProperty` or `ParsedBlock`.  The root (`ParsedConfig`)
is a bare `List Node`.  `line` is `Int` because mutations synthesize
nodes with the sentinel line `-1`. -/
inductive Node where
  | comment (content : String) (line : Int)
  | property (key : String) (value : Value) (comment : Option String) (line : Int)
  | commentedProperty (key : String) (value : Value) (comment : Option String) (line : Int)
  | block (name : String) (children : List Node) (line : Int)

/-- `prop.type === 'property' && prop.key === propertyName`. -/
def Node.isActiveProp (key : String) : Node → Bool
  | .property k _ _ _ => k == key
  | _ => false

/-- `prop.type === 'commented-property' && prop.key === propertyName`. -/
def Node.isCommentedProp (key : String) : Node → Bool
  | .commentedProperty k _ _ _ => k == key
  | _ => false

/-- `prop.type === 'block' && prop.name === blockName`. -/
def Node.isBlockNamed (name : String) : Node → Bool
  | .block n _ _ => n == name
  | _ => false

/-- `findProperty` (source lines 531-538): first child of the block that
is an active property with the given key. -/
def findProperty (ps : List Node) (key : String) : Option Node :=
  match ps with
  | [] => none
  | p :: rest => if p.isActiveProp key then some p else findProperty rest key

/-- `findCommentedProperty` (source lines 540-547). -/
def findCommentedProperty (ps : List Node) (key : String) : Option Node :=
  match ps with
  | [] => none
  | p :: rest => if p.isCommentedProp key then some p else findCommentedProperty rest key

/-- Index of the first active property with the key; this is what
`block.properties.indexOf(findProperty(block, key))` evaluates to. -/
def findPropertyIdx (ps : List Node) (key : String) : Option Nat :=
  match ps with
  | [] => none
  | p :: rest =>
    if p.isActiveProp key then some 0 else (findPropertyIdx rest key).map (· + 1)

/-- Index of the first commented property with the key. -/
def findCommentedPropertyIdx (ps : List Node) (key : String) : Option Nat :=
  match ps with
  | [] => none
  | p :: rest =>
    if p.isCommentedProp key then some 0 else (findCommentedPropertyIdx rest key).map (· + 1)

/-- Result record of `findPropertyOrCommented`. -/
structure FindResult where
  property : Option Node
  commented : Option Node
  isCommented : Bool

/-- `findPropertyOrCommented` (source lines 549-562):
`isCommented := !!commented && !property`. -/
def findPropertyOrCommented (ps : List Node) (key : String) : FindResult :=
  let property := findProperty ps key
  let commented := findCommentedProperty ps key
  { property := property, commented := commented
    isCommented := commented.isSome && !property.isSome }

/-- Replace the node at index `i` by `f` of it (in-place mutation of one
array slot). -/
def mapAt (ps : List Node) (i : Nat) (f : Node → Node) : List Node :=
  match ps, i with
  | [], _ => []
  | p :: rest, 0 => f p :: rest
  | p :: rest, i + 1 => p :: mapAt rest i f

/-- `existing.value = value` on a property node. -/
def Node.withValue (v : Value) : Node → Node
  | .property k _ c l => .property k v c l
  | .commentedProperty k _ c l => .commentedProperty k v c l
  | n => n

/-- Conversion done by `togglePropertyComment` when an active property is
found (source lines 581-591): same key, value, comment and line. -/
def Node.toCommented : Node → Node
  | .property k v c l => .commentedProperty k v c l
  | n => n

/-- Conversion done by `togglePropertyComment` when a commented property
is found (source lines 592-602): `value !== undefined ? value : old`. -/
def Node.toActive (newValue : Option Value) : Node → Node
  | .commentedProperty k v c l => .property k (newValue.getD v) c l
  | n => n

/-- `updateOrAddProperty` (source lines 564-576). -/
def updateOrAddProperty (ps : List Node) (key : String) (value : Value) : List Node :=
  match findPropertyIdx ps key with
  | some i => mapAt ps i (·.withValue value)
  | none => ps ++ [.property key value none (-1)]

/-- `togglePropertyComment` (source lines 578-612). -/
def togglePropertyComment (ps : List Node) (key : String) (value? : Option Value) :
    List Node :=
  match findPropertyIdx ps key with
  | some i => mapAt ps i Node.toCommented
  | none =>
    match findCommentedPropertyIdx ps key with
    | some j => mapAt ps j (Node.toActive value?)
    | none =>
      match value? with
      | some v => ps ++ [.property key v none (-1)]
      | none => ps

/-- `setPropertyEnabled` (source lines 614-634). -/
def setPropertyEnabled (ps : List Node) (key : String) (enabled : Bool)
    (value? : Option Value) : List Node :=
  if enabled then
    if (findCommentedPropertyIdx ps key).isSome then
      togglePropertyComment ps key value?
    else
      match findPropertyIdx ps key, value? with
      | none, some v => updateOrAddProperty ps key v
      | some i, some v => mapAt ps i (·.withValue v)
      | _, none => ps
  else
    match findPropertyIdx ps key with
    | some _ => togglePropertyComment ps key none
    | none => ps

/-- `findBlock` (source lines 522-529): first top-level block with the
given name. -/
def findBlock (config : List Node) (blockName : String) : Option Node :=
  match config with
  | [] => none
  | p :: rest => if p.isBlockNamed blockName then some p else findBlock rest blockName

/-- `ensureBlock` (source lines 636-648): returns the updated config and
the block (existing, or a freshly appended empty one with line `-1`). -/
def ensureBlock (config : List Node) (blockName : String) : List Node × Node :=
  match findBlock config blockName with
  | some b => (config, b)
  | none => (config ++ [.block blockName [] (-1)], .block blockName [] (-1))

/-! ### Helper lemmas about the list-index helpers -/

theorem mapAt_length (ps : List Node) (i : Nat) (f : Node → Node) :
    (mapAt ps i f).length = ps.length := by
  induction ps generalizing i with
  | nil => simp [mapAt]
  | cons p rest ih =>
    cases i with
    | zero => simp [mapAt]
    | succ j => simp [mapAt, ih]

theorem mapAt_eq_set (ps : List Node) (i : Nat) (f : Node → Node) (old : Node)
    (h : ps[i]? = some old) : mapAt ps i f = ps.set i (f old) := by
  induction ps generalizing i with
  | nil => simp at h
  | cons p rest ih =>
    cases i with
    | zero =>
      simp at h
      subst h
      simp [mapAt]
    | succ j =>
      simp at h
      simp [mapAt, List.set, ih j h]

theorem findPropertyIdx_spec (ps : List Node) (key : String) (i : Nat)
    (h : findPropertyIdx ps key = some i) :
    ∃ v c l, ps[i]? = some (.property key v c l) := by
  induction ps generalizing i with
  | nil => simp [findPropertyIdx] at h
  | cons p rest ih =>
    by_cases hp : p.isActiveProp key
    · simp [findPropertyIdx, hp] at h
      subst h
      cases p with
      | property k v c l =>
        simp [Node.isActiveProp] at hp
        subst hp
        exact ⟨v, c, l, by simp⟩
      | comment content l => simp [Node.isActiveProp] at hp
      | commentedProperty k v c l => simp [Node.isActiveProp] at hp
      | block n ch l => simp [Node.isActiveProp] at hp
    · simp [findPropertyIdx, hp] at h
      obtain ⟨j, hj, rfl⟩ := h
      obtain ⟨v, c, l, hv⟩ := ih j hj
      exact ⟨v, c, l, by simpa using hv⟩

theorem findCommentedPropertyIdx_spec (ps : List Node) (key : String) (j : Nat)
    (h : findCommentedPropertyIdx ps key = some j) :
    ∃ v c l, ps[j]? = some (.commentedProperty key v c l) := by
  induction ps generalizing j with
  | nil => simp [findCommentedPropertyIdx] at h
  | cons p rest ih =>
    by_cases hp : p.isCommentedProp key
    · simp [findCommentedPropertyIdx, hp] at h
      subst h
      cases p with
      | commentedProperty k v c l =>
        simp [Node.isCommentedProp] at hp
        subst hp
        exact ⟨v, c, l, by simp⟩
      | comment content l => simp [Node.isCommentedProp] at hp
      | property k v c l => simp [Node.isCommentedProp] at hp
      | block n ch l => simp [Node.isCommentedProp] at hp
    · simp [findCommentedPropertyIdx, hp] at h
      obtain ⟨i, hi, rfl⟩ := h
      obtain ⟨v, c, l, hv⟩ := ih i hi
      exact ⟨v, c, l, by simpa using hv⟩

theorem findPropertyIdx_lt_length (ps : List Node) (key : String) (i : Nat)
    (h : findPropertyIdx ps key = some i) : i < ps.length := by
  obtain ⟨v, c, l, hv⟩ := findPropertyIdx_spec ps key i h
  exact (List.getElem?_eq_some.mp hv).fst

theorem findProperty_none_iff (ps : List Node) (key : String) :
    findProperty ps key = none ↔ findPropertyIdx ps key = none := by
  induction ps with
  | nil => simp [findProperty, findPropertyIdx]
  | cons p rest ih =>
    by_cases hp : p.isActiveProp key
    · simp [findProperty, findPropertyIdx, hp]
    · simp [findProperty, findPropertyIdx, hp, ih]

theorem findCommentedProperty_none_iff (ps : List Node) (key : String) :
    findCommentedProperty ps key = none ↔ findCommentedPropertyIdx ps key = none := by
  induction ps with
  | nil => simp [findCommentedProperty, findCommentedPropertyIdx]
  | cons p rest ih =>
    by_cases hp : p.isCommentedProp key
    · simp [findCommentedProperty, findCommentedPropertyIdx, hp]
    · simp [findCommentedProperty, findCommentedPropertyIdx, hp, ih]

theorem findProperty_eq_find? (ps : List Node) (key : String) :
    findProperty ps key = ps.find? (·.isActiveProp key) := by
  induction ps with
  | nil => simp [findProperty]
  | cons p rest ih =>
    by_cases hp : p.isActiveProp key
    · simp [findProperty, hp, List.find?_cons_of_pos]
    · rw [findProperty, if_neg hp, List.find?_cons_of_neg _ (by simpa using hp), ih]

theorem findCommentedProperty_eq_find? (ps : List Node) (key : String) :
    findCommentedProperty ps key = ps.find? (·.isCommentedProp key) := by
  induction ps with
  | nil => simp [findCommentedProperty]
  | cons p rest ih =>
    by_cases hp : p.isCommentedProp key
    · simp [findCommentedProperty, hp, List.find?_cons_of_pos]
    · rw [findCommentedProperty, if_neg hp, List.find?_cons_of_neg _ (by simpa using hp), ih]

/-- Every code path of `togglePropertyComment` is a single-slot
replacement, an append of a fresh property, or the identity. -/
theorem togglePropertyComment_shape (ps : List Node) (key : String)
    (value? : Option Value) :
    togglePropertyComment ps key value? = ps ∨
    (∃ i old new, ps[i]? = some old ∧
        togglePropertyComment ps key value? = ps.set i new) ∨
    (∃ v, togglePropertyComment ps key value? = ps ++ [.property key v none (-1)]) := by
  cases hp : findPropertyIdx ps key with
  | some i =>
    obtain ⟨v, c, l, hv⟩ := findPropertyIdx_spec ps key i hp
    exact Or.inr (Or.inl ⟨i, _, Node.toCommented (.property key v c l), hv, by
      simp only [togglePropertyComment, hp, mapAt_eq_set ps i _ _ hv]⟩)
  | none =>
    cases hc : findCommentedPropertyIdx ps key with
    | some j =>
      obtain ⟨v, c, l, hv⟩ := findCommentedPropertyIdx_spec ps key j hc
      exact Or.inr (Or.inl ⟨j, _, Node.toActive value? (.commentedProperty key v c l), hv, by
        simp only [togglePropertyComment, hp, hc, mapAt_eq_set ps j _ _ hv]⟩)
    | none =>
      cases value? with
      | some v =>
        exact Or.inr (Or.inr ⟨v, by simp only [togglePropertyComment, hp, hc]⟩)
      | none =>
        exact Or.inl (by simp only [togglePropertyComment, hp, hc])

/-- `updateOrAddProperty` either rewrites one existing slot or appends. -/
theorem updateOrAddProperty_shape (ps : List Node) (key : String) (v : Value) :
    (∃ i old new, ps[i]? = some old ∧
        updateOrAddProperty ps key v = ps.set i new) ∨
    updateOrAddProperty ps key v = ps ++ [.property key v none (-1)] := by
  cases hp : findPropertyIdx ps key with
  | some i =>
    obtain ⟨w, c, l, hv⟩ := findPropertyIdx_spec ps key i hp
    exact Or.inl ⟨i, _, Node.withValue v (.property key w c l), hv, by
      simp only [updateOrAddProperty, hp, mapAt_eq_set ps i _ _ hv]⟩
  | none => exact Or.inr (by simp only [updateOrAddProperty, hp])

/-- Every code path of `setPropertyEnabled` is a single-slot replacement,
an append of a fresh property, or the identity. -/
theorem setPropertyEnabled_shape (ps : List Node) (key : String) (enabled : Bool)
    (value? : Option Value) :
    setPropertyEnabled ps key enabled value? = ps ∨
    (∃ i old new, ps[i]? = some old ∧
        setPropertyEnabled ps key enabled value? = ps.set i new) ∨
    (∃ v, setPropertyEnabled ps key enabled value? = ps ++ [.property key v none (-1)]) := by
  cases enabled with
  | true =>
    cases hc : (findCommentedPropertyIdx ps key).isSome with
    | true =>
      have h : setPropertyEnabled ps key true value? = togglePropertyComment ps key value? := by
        simp only [setPropertyEnabled, hc, if_true, if_pos rfl]
      rw [h]
      exact togglePropertyComment_shape ps key value?
    | false =>
      cases hp : findPropertyIdx ps key with
      | some i =>
        cases value? with
        | some v =>
          obtain ⟨w, c, l, hv⟩ := findPropertyIdx_spec ps key i hp
          exact Or.inr (Or.inl ⟨i, _, Node.withValue v (.property key w c l), hv, by
            simp only [setPropertyEnabled, hc, hp, Bool.false_eq_true, if_false,
              if_true, mapAt_eq_set ps i _ _ hv]⟩)
        | none =>
          exact Or.inl (by simp only [setPropertyEnabled, hc, hp, Bool.false_eq_true,
            if_false, if_true])
      | none =>
        cases value? with
        | some v =>
          have h : setPropertyEnabled ps key true (some v) = updateOrAddProperty ps key v := by
            simp only [setPropertyEnabled, hc, hp, Bool.false_eq_true, if_false, if_true]
          rw [h]
          rcases updateOrAddProperty_shape ps key v with ⟨i, old, new, h1, h2⟩ | h1
          · exact Or.inr (Or.inl ⟨i, old, new, h1, h2⟩)
          · exact Or.inr (Or.inr ⟨v, h1⟩)
        | none =>
          exact Or.inl (by simp only [setPropertyEnabled, hc, hp, Bool.false_eq_true,
            if_false, if_true])
  | false =>
    cases hp : findPropertyIdx ps key with
    | some i =>
      have h : setPropertyEnabled ps key false value? = togglePropertyComment ps key none := by
        simp only [setPropertyEnabled, hp, Bool.false_eq_true, if_false]
      rw [h]
      exact togglePropertyComment_shape ps key none
    | none =>
      exact Or.inl (by simp only [setPropertyEnabled, hp, Bool.false_eq_true, if_false])

theorem countP_set_incr (p : Node → Bool) (ps : List Node) (i : Nat) (old new : Node)
    (h : ps[i]? = some old) (hold : p old = false) (hnew : p new = true) :
    (ps.set i new).countP p = ps.countP p + 1 := by
  induction ps generalizing i with
  | nil => simp at h
  | cons q rest ih =>
    cases i with
    | zero =>
      simp at h
      subst h
      simp [List.countP_cons, hold, hnew]
    | succ j =>
      simp at h
      simp [List.countP_cons, ih j h]
      omega

theorem findProperty_isSome_iff (ps : List Node) (key : String) :
    (findProperty ps key).isSome = true ↔ ∃ n ∈ ps, n.isActiveProp key := by
  rw [findProperty_eq_find?]
  simp [List.find?_isSome]

theorem findCommentedProperty_isSome_iff (ps : List Node) (key : String) :
    (findCommentedProperty ps key).isSome = true ↔ ∃ n ∈ ps, n.isCommentedProp key := by
  rw [findCommentedProperty_eq_find?]
  simp [List.find?_isSome]

/-! ### Claim theorems: query/mutation API -/

/-- C4: `findPropertyOrCommented(block, k)` returns the first active
property match, the first commented match, and `isCommented = true`
exactly when a commented match exists and no active match exists; when
both exist it reports the active one and `isCommented = false`. -/
theorem C4_findPropertyOrCommented_spec (ps : List Node) (key : String) :
    (findPropertyOrCommented ps key).property = ps.find? (·.isActiveProp key) ∧
    (findPropertyOrCommented ps key).commented = ps.find? (·.isCommentedProp key) ∧
    ((findPropertyOrCommented ps key).isCommented = true ↔
      (∃ n ∈ ps, n.isCommentedProp key) ∧ ¬ ∃ n ∈ ps, n.isActiveProp key) ∧
    ((∃ n ∈ ps, n.isActiveProp key) →
      (findPropertyOrCommented ps key).isCommented = false) := by
  refine ⟨findProperty_eq_find? ps key, findCommentedProperty_eq_find? ps key, ?_, ?_⟩
  · simp only [findPropertyOrCommented, Bool.and_eq_true, Bool.not_eq_true',
      ← findCommentedProperty_isSome_iff ps key]
    constructor
    · rintro ⟨h1, h2⟩
      refine ⟨h1, fun hx => ?_⟩
      rw [(findProperty_isSome_iff ps key).mpr hx] at h2
      exact Bool.true_eq_false.mp h2
    · rintro ⟨h1, h2⟩
      refine ⟨h1, ?_⟩
      cases hb : (findProperty ps key).isSome with
      | false => rfl
      | true => exact absurd ((findProperty_isSome_iff ps key).mp hb) h2
  · intro hx
    have := (findProperty_isSome_iff ps key).mpr hx
    simp [findPropertyOrCommented, this]

/-- C4 witness: with both an active and a commented `k` entry present the
derived flag is `false`. -/
theorem C4_witness :
    (findPropertyOrCommented
      [Node.commentedProperty "k" (.str "b") none 1, Node.property "k" (.str "a") none 2]
      "k").isCommented = false :=
  (C4_findPropertyOrCommented_spec
    [Node.commentedProperty "k" (.str "b") none 1, Node.property "k" (.str "a") none 2]
    "k").2.2.2 ⟨Node.property "k" (.str "a") none 2, by simp, by simp [Node.isActiveProp]⟩

/-- C3: every node whose kind `setPropertyEnabled` changes is replaced in
place at its existing index: each call is a no-op, a single-slot `set`
(which keeps every other sibling and the length), or an append of a
fresh node; it never removes-and-reappends. -/
theorem C3_setPropertyEnabled_in_place (ps : List Node) (key : String)
    (enabled : Bool) (value? : Option Value) :
    setPropertyEnabled ps key enabled value? = ps ∨
    (∃ i old new, ps[i]? = some old ∧
        setPropertyEnabled ps key enabled value? = ps.set i new ∧
        (setPropertyEnabled ps key enabled value?).length = ps.length ∧
        ∀ j, j ≠ i → (setPropertyEnabled ps key enabled value?)[j]? = ps[j]?) ∨
    (∃ v, setPropertyEnabled ps key enabled value? =
        ps ++ [Node.property key v none (-1)]) := by
  rcases setPropertyEnabled_shape ps key enabled value? with h | ⟨i, old, new, h1, h2⟩ | ⟨v, h⟩
  · exact Or.inl h
  · refine Or.inr (Or.inl ⟨i, old, new, h1, h2, ?_, ?_⟩)
    · rw [h2]; simp
    · intro j hj
      rw [h2]
      exact List.getElem?_set_ne (Ne.symm hj)
  · exact Or.inr (Or.inr ⟨v, h⟩)

/-- C2 counterexample: when the block holds BOTH an active and a
commented property for `k`, `setPropertyEnabled(block, k, true, v)` does
not update the active property in place; it converts it to a
commented-property (the requested value `v` is dropped), so the claim
fails as stated. -/
theorem C2_counterexample :
    (setPropertyEnabled
        [Node.property "k" (.str "a") none 1, Node.commentedProperty "k" (.str "b") none 2]
        "k" true (some (.str "v")))[0]? =
      some (Node.commentedProperty "k" (.str "a") none 1) ∧
    ((setPropertyEnabled
        [Node.property "k" (.str "a") none 1, Node.commentedProperty "k" (.str "b") none 2]
        "k" true (some (.str "v")))[0]?).map (·.isActiveProp "k") = some false :=
  ⟨rfl, rfl⟩

/-- C2 amended: if the block contains an active property with key `k`
and NO commented property with that key, then
`setPropertyEnabled(block, k, true, v)` mutates the value of the
existing property in place: the node at its index is still an active
property with key `k` and value `v`. -/
theorem C2_amended_inplace_update (ps : List Node) (key : String) (v : Value)
    (i : Nat) (w : Value) (c : Option String) (l : Int)
    (hnc : findCommentedProperty ps key = none)
    (hi : findPropertyIdx ps key = some i)
    (hv : ps[i]? = some (Node.property key w c l)) :
    setPropertyEnabled ps key true (some v) = ps.set i (Node.property key v c l) ∧
    (setPropertyEnabled ps key true (some v))[i]? = some (Node.property key v c l) := by
  have hnc' := (findCommentedProperty_none_iff ps key).mp hnc
  have hm := mapAt_eq_set ps i (·.withValue v) _ hv
  have heq : setPropertyEnabled ps key true (some v) =
      ps.set i (Node.property key v c l) := by
    have h1 : setPropertyEnabled ps key true (some v) = mapAt ps i (·.withValue v) := by
      simp [setPropertyEnabled, hnc', hi]
    rw [h1, hm]
    rfl
  refine ⟨heq, ?_⟩
  rw [heq]
  exact List.getElem?_set_eq_of_lt _ (findPropertyIdx_lt_length ps key i hi)

/-- C2 amended, witness at a concrete block. -/
theorem C2_amended_witness :
    setPropertyEnabled [Node.property "k" (.str "a") none 1] "k" true (some (.str "v")) =
      [Node.property "k" (.str "a") none 1].set 0 (Node.property "k" (.str "v") none 1) :=
  (C2_amended_inplace_update [Node.property "k" (.str "a") none 1] "k" (.str "v") 0
    (.str "a") none 1 rfl rfl rfl).1

/-- C7: the mutation operations are total functions of the embedding
(they never raise): `setPropertyEnabled` with `enabled = false` and no
active match leaves the children unchanged, and every operation either
performs its in-place/append edit or is a no-op. -/
theorem C7_mutations_never_fail :
    (∀ (ps : List Node) (key : String) (value? : Option Value),
        findProperty ps key = none → setPropertyEnabled ps key false value? = ps) ∧
    (∀ (ps : List Node) (key : String) (enabled : Bool) (value? : Option Value),
        setPropertyEnabled ps key enabled value? = ps ∨
        (∃ i old new, ps[i]? = some old ∧
            setPropertyEnabled ps key enabled value? = ps.set i new) ∨
        (∃ v, setPropertyEnabled ps key enabled value? =
            ps ++ [Node.property key v none (-1)])) ∧
    (∀ (ps : List Node) (key : String) (v : Value),
        (∃ i old new, ps[i]? = some old ∧
            updateOrAddProperty ps key v = ps.set i new) ∨
        updateOrAddProperty ps key v = ps ++ [Node.property key v none (-1)]) ∧
    (∀ (config : List Node) (bn : String),
        (∃ b, findBlock config bn = some b ∧ ensureBlock config bn = (config, b)) ∨
        (findBlock config bn = none ∧
          ensureBlock config bn =
            (config ++ [Node.block bn [] (-1)], Node.block bn [] (-1)))) := by
  refine ⟨?_, setPropertyEnabled_shape, updateOrAddProperty_shape, ?_⟩
  · intro ps key value? h
    have h' := (findProperty_none_iff ps key).mp h
    simp [setPropertyEnabled, h']
  · intro config bn
    cases hb : findBlock config bn with
    | some b => exact Or.inl ⟨b, rfl, by simp [ensureBlock, hb]⟩
    | none => exact Or.inr ⟨rfl, by simp [ensureBlock, hb]⟩

/-- C7 witness: disabling a key in a block with only a commented match
is a no-op. -/
theorem C7_witness :
    setPropertyEnabled [Node.commentedProperty "k" (.str "b") none 1] "k" false none =
      [Node.commentedProperty "k" (.str "b") none 1] :=
  C7_mutations_never_fail.1 [Node.commentedProperty "k" (.str "b") none 1] "k" none rfl

/-- C9: if a block holds both an active and a commented property for
`k`, then disabling converts the active node into a second commented
property at its own index, so two commented nodes with key `k` remain;
and no mutation operation ever shrinks the children list. -/
theorem C9_disable_duplicates_kept (ps : List Node) (key : String) (i j : Nat)
    (w : Value) (c : Option String) (l : Int)
    (hi : findPropertyIdx ps key = some i)
    (hj : findCommentedPropertyIdx ps key = some j)
    (hv : ps[i]? = some (Node.property key w c l)) :
    setPropertyEnabled ps key false none = ps.set i (Node.commentedProperty key w c l) ∧
    (setPropertyEnabled ps key false none).countP (·.isCommentedProp key) =
      ps.countP (·.isCommentedProp key) + 1 ∧
    2 ≤ (setPropertyEnabled ps key false none).countP (·.isCommentedProp key) ∧
    (setPropertyEnabled ps key false none).length = ps.length ∧
    (∀ (qs : List Node) (k : String) (e : Bool) (v? : Option Value),
        qs.length ≤ (setPropertyEnabled qs k e v?).length) ∧
    (∀ (qs : List Node) (k : String) (v : Value),
        qs.length ≤ (updateOrAddProperty qs k v).length) ∧
    (∀ (qs : List Node) (k : String) (v? : Option Value),
        qs.length ≤ (togglePropertyComment qs k v?).length) := by
  have hm := mapAt_eq_set ps i Node.toCommented _ hv
  have heq : setPropertyEnabled ps key false none =
      ps.set i (Node.commentedProperty key w c l) := by
    simp [setPropertyEnabled, hi, togglePropertyComment, hm, Node.toCommented]
  obtain ⟨v2, c2, l2, hv2⟩ := findCommentedPropertyIdx_spec ps key j hj
  have hcount : (ps.set i (Node.commentedProperty key w c l)).countP
      (·.isCommentedProp key) = ps.countP (·.isCommentedProp key) + 1 :=
    countP_set_incr _ ps i _ _ hv (by simp [Node.isActiveProp, Node.isCommentedProp])
      (by simp [Node.isCommentedProp])
  have hpos : 0 < ps.countP (·.isCommentedProp key) :=
    List.countP_pos_iff.mpr ⟨_, List.getElem?_mem hv2, by simp [Node.isCommentedProp]⟩
  refine ⟨heq, by rw [heq, hcount], by rw [heq, hcount]; omega, by rw [heq]; simp,
    ?_, ?_, ?_⟩
  · intro qs k e v?
    rcases setPropertyEnabled_shape qs k e v? with h | ⟨i', o', n', _, h⟩ | ⟨v', h⟩ <;>
      simp [h]
  · intro qs k v
    rcases updateOrAddProperty_shape qs k v with ⟨i', o', n', _, h⟩ | h <;> simp [h]
  · intro qs k v?
    rcases togglePropertyComment_shape qs k v? with h | ⟨i', o', n', _, h⟩ | ⟨v', h⟩ <;>
      simp [h]

/-- C9 witness at a concrete block holding both kinds for `k`. -/
theorem C9_witness :
    setPropertyEnabled
      [Node.property "k" (.str "a") none 1, Node.commentedProperty "k" (.str "b") none 2]
      "k" false none =
    [Node.property "k" (.str "a") none 1,
      Node.commentedProperty "k" (.str "b") none 2].set 0
      (Node.commentedProperty "k" (.str "a") none 1) :=
  (C9_disable_duplicates_kept
    [Node.property "k" (.str "a") none 1, Node.commentedProperty "k" (.str "b") none 2]
    "k" 0 1 (.str "a") none 1 rfl rfl rfl).1

/-- C10: `setPropertyEnabled(block, key, true)` without a value is a
no-op whenever the block contains no commented property with that key
(no match at all, or only an active match). -/
theorem C10_enable_no_commented_noop (ps : List Node) (key : String)
    (h : findCommentedProperty ps key = none) :
    setPropertyEnabled ps key true none = ps := by
  have h' := (findCommentedProperty_none_iff ps key).mp h
  cases hp : findPropertyIdx ps key <;> simp [setPropertyEnabled, h', hp]

/-- C10 witness: an active-only block is left untouched. -/
theorem C10_witness :
    setPropertyEnabled [Node.property "k" (.str "a") none 1] "k" true none =
      [Node.property "k" (.str "a") none 1] :=
  C10_enable_no_commented_noop [Node.property "k" (.str "a") none 1] "k" rfl

/-! ### String utilities modelling the JavaScript primitives -/

/-- JavaScript whitespace for `trim` / `Number` (ASCII part; the inputs
handled by this codebase are ASCII). -/
def isJsWhitespace (c : Char) : Bool :=
  c == ' ' || c == '\t' || c == '\n' || c == '\r' || c == '\x0b' || c == '\x0c'

/-- `String.prototype.trim()` on the character list. -/
def jsTrimList (cs : List Char) : List Char :=
  ((cs.dropWhile isJsWhitespace).reverse.dropWhile isJsWhitespace).reverse

/-- `String.prototype.trim()`. -/
def jsTrim (s : String) : String := ⟨jsTrimList s.data⟩

/-- `String.prototype.split(sep)` with a one-character separator: the
complete field list (JS keeps empty fields). -/
def jsSplitList (sep : Char) (cs : List Char) : List (List Char) :=
  match cs with
  | [] => [[]]
  | c :: rest =>
    if c = sep then [] :: jsSplitList sep rest
    else
      match jsSplitList sep rest with
      | [] => [[c]]
      | f :: fs => (c :: f) :: fs

/-- Decimal-digit run helper for the numeric test. -/
def allDigits (cs : List Char) : Bool := cs.all (·.isDigit)

/-- Exponent tail of a JS decimal literal: `[+|-] DecimalDigits`. -/
def jsExpTail (cs : List Char) : Bool :=
  match cs with
  | '+' :: ds => ds ≠ [] && allDigits ds
  | '-' :: ds => ds ≠ [] && allDigits ds
  | ds => ds ≠ [] && allDigits ds

/-- `StrUnsignedDecimalLiteral`:
`Infinity | DecimalDigits [. DecimalDigits?] [Exponent] | . DecimalDigits [Exponent]`. -/
def jsUnsignedDecimal (cs : List Char) : Bool :=
  if cs = "Infinity".data then true
  else
    let intPart := cs.takeWhile (·.isDigit)
    let rest0 := cs.dropWhile (·.isDigit)
    match rest0 with
    | [] => intPart ≠ []
    | '.' :: rest1 =>
      let fracPart := rest1.takeWhile (·.isDigit)
      let rest2 := rest1.dropWhile (·.isDigit)
      (intPart ≠ [] || fracPart ≠ []) &&
        (match rest2 with
         | [] => true
         | 'e' :: tl => jsExpTail tl
         | 'E' :: tl => jsExpTail tl
         | _ => false)
    | 'e' :: tl => intPart ≠ [] && jsExpTail tl
    | 'E' :: tl => intPart ≠ [] && jsExpTail tl
    | _ => false

/-- Hexadecimal digit. -/
def isHexDigitChar (c : Char) : Bool :=
  c.isDigit || ('a' ≤ c && c ≤ 'f') || ('A' ≤ c && c ≤ 'F')

/-- `0x / 0o / 0b` integer literals (no sign allowed in JS). -/
def jsRadixLiteral (cs : List Char) : Bool :=
  match cs with
  | '0' :: x :: ds =>
    if x == 'x' || x == 'X' then ds ≠ [] && ds.all isHexDigitChar
    else if x == 'o' || x == 'O' then ds ≠ [] && ds.all (fun c => '0' ≤ c && c ≤ '7')
    else if x == 'b' || x == 'B' then ds ≠ [] && ds.all (fun c => c == '0' || c == '1')
    else false
  | _ => false

/-- Models `!isNaN(Number(s))`: after trimming, the text is empty
(`Number` gives `0`), a signed decimal/`Infinity` literal, or an
unsigned radix literal. -/
def isNumericStr (s : String) : Bool :=
  let t := jsTrimList s.data
  match t with
  | [] => true
  | '+' :: body => jsUnsignedDecimal body
  | '-' :: body => jsUnsignedDecimal body
  | _ => jsUnsignedDecimal t || jsRadixLiteral t

/-- The boolean/number coercion applied to parsed value text
(source lines 369-374): `'true'/'false'` become booleans, then
`!isNaN(Number(value)) && value !== ''` becomes a number, else the text
stays a string. -/
def coerceValue (s : String) : Value :=
  if s = "true" then .bool true
  else if s = "false" then .bool false
  else if isNumericStr s && s ≠ "" then .num s
  else .str s

/-! ### Tokens -/

/-- `TokenType` (source lines 41-52). -/
inductive TokKind where
  | ident | eq | lbrace | rbrace | str | num | bool | comment | newline | eof
deriving DecidableEq

/-- `Token` (source lines 54-59). -/
structure Token where
  kind : TokKind
  value : String
  line : Nat
  column : Nat
deriving DecidableEq

/-- Payload value of a property-like node, for stating claims. -/
def Node.valueOf : Node → Option Value
  | .property _ v _ _ => some v
  | .commentedProperty _ v _ _ => some v
  | _ => none

/-- `parseCommentedProperty` (source lines 344-383).  The regex
`/^([^#]*)(#(.*))?$/` matches unless the text after the first `#`
contains a newline (`.` does not match newlines); on failure the value
keeps the whole remainder, mirroring the source. -/
def parseCommentedProperty (tok : Token) : Node :=
  let content := jsTrimList tok.value.data
  match (jsSplitList '=' content).take 2 with
  | [p0, p1] =>
    let key : String := ⟨jsTrimList p0⟩
    let vac := jsTrimList p1
    let pre := vac.takeWhile (· != '#')
    let vc : String × Option String :=
      if pre = vac then (⟨jsTrimList pre⟩, none)
      else
        let post := (vac.dropWhile (· != '#')).tail
        if post.contains '\n' then (⟨vac⟩, none)
        else (⟨jsTrimList pre⟩, some ⟨jsTrimList post⟩)
    .commentedProperty key (coerceValue vc.1) vc.2 (tok.line : Int)
  | _ => .comment tok.value (tok.line : Int)

/-- `parseCommentOrCommentedProperty` (source lines 329-342). -/
def parseCommentOrCommentedProperty (tok : Token) : Node :=
  if tok.value.data.contains '=' then parseCommentedProperty tok
  else .comment tok.value (tok.line : Int)

/-! ### C5: characterizing the commented-property split -/

/-- Field of `cs` before the first occurrence of `sep`. -/
def beforeFirst (sep : Char) (cs : List Char) : List Char := cs.takeWhile (· != sep)

/-- Field of `cs` strictly between the first and the second occurrence
of `sep` (running to the end when there is no second occurrence). -/
def betweenFirstTwo (sep : Char) (cs : List Char) : List Char :=
  ((cs.dropWhile (· != sep)).tail).takeWhile (· != sep)

theorem beforeFirst_cons_self (sep : Char) (rest : List Char) :
    beforeFirst sep (sep :: rest) = [] := by
  simp [beforeFirst]

theorem beforeFirst_cons_ne {c sep : Char} (h : c ≠ sep) (rest : List Char) :
    beforeFirst sep (c :: rest) = c :: beforeFirst sep rest := by
  simp [beforeFirst, List.takeWhile_cons_of_pos, bne_iff_ne, h]

theorem betweenFirstTwo_cons_self (sep : Char) (rest : List Char) :
    betweenFirstTwo sep (sep :: rest) = beforeFirst sep rest := by
  simp [betweenFirstTwo, beforeFirst]

theorem betweenFirstTwo_cons_ne {c sep : Char} (h : c ≠ sep) (rest : List Char) :
    betweenFirstTwo sep (c :: rest) = betweenFirstTwo sep rest := by
  simp [betweenFirstTwo, List.dropWhile_cons_of_pos, bne_iff_ne, h]

theorem jsSplitList_head (sep : Char) (cs : List Char) :
    ∃ fs, jsSplitList sep cs = beforeFirst sep cs :: fs := by
  induction cs with
  | nil => exact ⟨[], rfl⟩
  | cons c rest ih =>
    by_cases h : c = sep
    · exact ⟨jsSplitList sep rest, by simp [jsSplitList, h, beforeFirst_cons_self]⟩
    · obtain ⟨fs, hfs⟩ := ih
      exact ⟨fs, by simp [jsSplitList, h, hfs, beforeFirst_cons_ne h]⟩

theorem jsSplitList_two_fields (sep : Char) (cs : List Char) (h : sep ∈ cs) :
    ∃ fs, jsSplitList sep cs =
      beforeFirst sep cs :: betweenFirstTwo sep cs :: fs := by
  induction cs with
  | nil => simp at h
  | cons c rest ih =>
    by_cases hc : c = sep
    · obtain ⟨fs, hfs⟩ := jsSplitList_head sep rest
      exact ⟨fs, by
        simp [jsSplitList, hc, hfs, beforeFirst_cons_self, betweenFirstTwo_cons_self]⟩
    · have h' : sep ∈ rest := by
        rcases List.mem_cons.mp h with h0 | h0
        · exact absurd h0.symm hc
        · exact h0
      obtain ⟨fs, hfs⟩ := ih h'
      exact ⟨fs, by
        simp [jsSplitList, hc, hfs, beforeFirst_cons_ne hc, betweenFirstTwo_cons_ne hc]⟩

theorem mem_dropWhile_of_neg {p : Char → Bool} {a : Char} {cs : List Char}
    (h : a ∈ cs) (ha : p a = false) : a ∈ cs.dropWhile p := by
  induction cs with
  | nil => simp at h
  | cons c rest ih =>
    by_cases hc : p c = true
    · rw [List.dropWhile_cons_of_pos hc]
      rcases List.mem_cons.mp h with rfl | h'
      · rw [hc] at ha
        exact absurd ha (by simp)
      · exact ih h'
    · rw [List.dropWhile_cons_of_neg hc]
      exact h

theorem mem_jsTrimList_of_neg {a : Char} {cs : List Char}
    (h : a ∈ cs) (ha : isJsWhitespace a = false) : a ∈ jsTrimList cs := by
  unfold jsTrimList
  rw [List.mem_reverse]
  refine mem_dropWhile_of_neg ?_ ha
  rw [List.mem_reverse]
  exact mem_dropWhile_of_neg h ha

theorem mem_of_mem_jsTrimList {a : Char} {cs : List Char}
    (h : a ∈ jsTrimList cs) : a ∈ cs := by
  unfold jsTrimList at h
  rw [List.mem_reverse] at h
  have h1 := (List.dropWhile_sublist (l := (cs.dropWhile isJsWhitespace).reverse)
    isJsWhitespace).mem h
  rw [List.mem_reverse] at h1
  exact (List.dropWhile_sublist isJsWhitespace).mem h1

theorem mem_of_mem_betweenFirstTwo {a sep : Char} {cs : List Char}
    (h : a ∈ betweenFirstTwo sep cs) : a ∈ cs := by
  unfold betweenFirstTwo at h
  have h1 := (List.takeWhile_sublist (· != sep)).mem h
  have h2 := List.mem_of_mem_tail h1
  exact (List.dropWhile_sublist (· != sep)).mem h2

/-- Unfolding of `parseCommentedProperty` once the two split fields are
known. -/
theorem parseCommentedProperty_eq_of_fields (tok : Token) (p0 p1 : List Char)
    (fs : List (List Char))
    (hfs : jsSplitList '=' (jsTrimList tok.value.data) = p0 :: p1 :: fs) :
    parseCommentedProperty tok =
      (let key : String := ⟨jsTrimList p0⟩
       let vac := jsTrimList p1
       let pre := vac.takeWhile (· != '#')
       let vc : String × Option String :=
         if pre = vac then (⟨jsTrimList pre⟩, none)
         else
           let post := (vac.dropWhile (· != '#')).tail
           if post.contains '\n' then (⟨vac⟩, none)
           else (⟨jsTrimList pre⟩, some ⟨jsTrimList post⟩)
       Node.commentedProperty key (coerceValue vc.1) vc.2 (tok.line : Int)) := by
  simp only [parseCommentedProperty]
  rw [hfs]
  rfl

/-- Amended C5 spec: the value part of the remainder, i.e. the remainder
text up to a trailing `#`, trimmed. -/
def specValuePart (vac : List Char) : List Char :=
  jsTrimList (vac.takeWhile (· != '#'))

/-- Amended C5 spec: the inline-comment part of the remainder, i.e. the
text after a trailing `#`, trimmed; absent when the remainder holds no
`#`. -/
def specCommentPart (vac : List Char) : Option String :=
  if '#' ∈ vac then some ⟨jsTrimList ((vac.dropWhile (· != '#')).tail)⟩ else none

/-- C5 counterexample: for the commented line `# k = a=b` (comment token
text `k = a=b`) the parser produces value `"a"` — JavaScript
`split('=', 2)` keeps only the segment between the first and second `=`
— not `"a=b"` as the claim states. -/
theorem C5_counterexample :
    parseCommentedProperty { kind := .comment, value := "k = a=b", line := 1, column := 1 } =
      Node.commentedProperty "k" (.str "a") none 1 ∧
    (parseCommentedProperty
        { kind := .comment, value := "k = a=b", line := 1, column := 1 }).valueOf ≠
      some (Value.str "a=b") :=
  ⟨rfl, by decide⟩

/-- C5 amended: for every comment token whose text contains `=` (and no
newline — comment tokens never contain one), the parser trims the text,
splits it at the first `=` into key and remainder, where the remainder
keeps the text after that first `=` only UP TO the next `=` (anything
after a second `=` is dropped), splits the remainder on a trailing `#`
into value and inline comment, and coerces the value with the
boolean/number rule. -/
theorem C5_amended_split (tok : Token)
    (hin : '=' ∈ tok.value.data) (hnl : '\n' ∉ tok.value.data) :
    parseCommentedProperty tok =
      Node.commentedProperty
        ⟨jsTrimList (beforeFirst '=' (jsTrimList tok.value.data))⟩
        (coerceValue
          ⟨specValuePart (jsTrimList (betweenFirstTwo '=' (jsTrimList tok.value.data)))⟩)
        (specCommentPart (jsTrimList (betweenFirstTwo '=' (jsTrimList tok.value.data))))
        (tok.line : Int) := by
  have hmem : '=' ∈ jsTrimList tok.value.data := mem_jsTrimList_of_neg hin (by decide)
  obtain ⟨fs, hfs⟩ := jsSplitList_two_fields '=' (jsTrimList tok.value.data) hmem
  rw [parseCommentedProperty_eq_of_fields tok _ _ fs hfs]
  by_cases hhash : '#' ∈ jsTrimList (betweenFirstTwo '=' (jsTrimList tok.value.data))
  · have hpre : (jsTrimList (betweenFirstTwo '=' (jsTrimList tok.value.data))).takeWhile
        (· != '#') ≠ jsTrimList (betweenFirstTwo '=' (jsTrimList tok.value.data)) := by
      intro he
      have := List.takeWhile_eq_self_iff.mp he _ hhash
      simp at this
    have hpostmem : '\n' ∉ ((jsTrimList (betweenFirstTwo '='
        (jsTrimList tok.value.data))).dropWhile (· != '#')).tail := by
      intro hm
      have h1 := List.mem_of_mem_tail hm
      have h2 := (List.dropWhile_sublist (· != '#')).mem h1
      have h3 := mem_of_mem_jsTrimList h2
      have h4 := mem_of_mem_betweenFirstTwo h3
      have h5 := mem_of_mem_jsTrimList h4
      exact hnl h5
    have hpost : (((jsTrimList (betweenFirstTwo '='
        (jsTrimList tok.value.data))).dropWhile (· != '#')).tail).contains '\n' = false := by
      simpa [List.contains] using hpostmem
    simp only [if_neg hpre, hpost, Bool.false_eq_true, if_false,
      specValuePart, specCommentPart, if_pos hhash]
  · have hpre : (jsTrimList (betweenFirstTwo '=' (jsTrimList tok.value.data))).takeWhile
        (· != '#') = jsTrimList (betweenFirstTwo '=' (jsTrimList tok.value.data)) :=
      List.takeWhile_eq_self_iff.mpr (fun x hx => by
        rcases eq_or_ne x '#' with rfl | hne
        · exact absurd hx hhash
        · simp [hne])
    simp [hpre, specValuePart, specCommentPart, hhash]

/-! ### Tokenizer (source lines 81-293) -/

/-- `isAlphaNumeric`: the regex `/[a-zA-Z0-9]/` (source lines 291-293). -/
def isAlphaNumericChar (c : Char) : Bool :=
  ('a' ≤ c && c ≤ 'z') || ('A' ≤ c && c ≤ 'Z') || ('0' ≤ c && c ≤ '9')

/-- Characters that continue an identifier/number run
(source lines 225-230). -/
def isWordChar (c : Char) : Bool :=
  isAlphaNumericChar c || c == '-' || c == '.' || c == '_' || c == ':'

/-- Characters that terminate the catch-all token
(source lines 255-263). -/
def isDelimiter (c : Char) : Bool :=
  c == ' ' || c == '\t' || c == '\n' || c == '\r' || c == '=' ||
  c == '\x7b' || c == '\x7d' || c == '#'

/-- Quoted-string scanner (source lines 184-220).  Returns the collected
value, the rest of the input (after the closing quote when present) and
the updated line/column.  A backslash escapes the following character;
an embedded newline resets the column and bumps the line. -/
def scanString (quote : Char) : List Char → Nat → Nat → (List Char × List Char × Nat × Nat)
  | [], line, col => ([], [], line, col)
  | c :: cs, line, col =>
    if c = quote then ([], cs, line, col + 1)
    else if c = '\\' then
      match cs with
      | [] => ([c], [], line, col + 1)
      | x :: cs' =>
        let r := if x = '\n' then scanString quote cs' (line + 1) 1
                 else scanString quote cs' line (col + 2)
        (x :: r.1, r.2)
    else
      let r := if c = '\n' then scanString quote cs (line + 1) 1
               else scanString quote cs line (col + 1)
      (c :: r.1, r.2)

/-- One pass of `tokenize` (source lines 81-285), with explicit fuel so
that the recursion is structural (each step consumes at least one
character, so `length + 1` fuel always suffices; see
`tokenizeAux_fuel_irrelevant`).  When the input is exhausted the
end-of-input token carrying the final line/column is appended. -/
def tokenizeAux : Nat → List Char → Nat → Nat → List Token
  | 0, _, line, col => [⟨.eof, "", line, col⟩]
  | _ + 1, [], line, col => [⟨.eof, "", line, col⟩]
  | fuel + 1, c :: cs, line, col =>
    if c = ' ' ∨ c = '\t' ∨ c = '\r' then
      tokenizeAux fuel cs line (col + 1)
    else if c = '\n' then
      ⟨.newline, "\n", line, col⟩ :: tokenizeAux fuel cs (line + 1) 1
    else if c = '#' then
      let body := cs.takeWhile (· != '\n')
      let rest := cs.dropWhile (· != '\n')
      ⟨.comment, ⟨jsTrimList body⟩, line, col⟩ ::
        tokenizeAux fuel rest line (col + body.length + 1)
    else if c = '\x7b' then
      ⟨.lbrace, "\x7b", line, col⟩ :: tokenizeAux fuel cs line (col + 1)
    else if c = '\x7d' then
      ⟨.rbrace, "\x7d", line, col⟩ :: tokenizeAux fuel cs line (col + 1)
    else if c = '=' then
      ⟨.eq, "=", line, col⟩ :: tokenizeAux fuel cs line (col + 1)
    else if c = '"' ∨ c = '\'' then
      let r := scanString c cs line (col + 1)
      ⟨.str, ⟨r.1⟩, line, col⟩ :: tokenizeAux fuel r.2.1 r.2.2.1 r.2.2.2
    else if isAlphaNumericChar c ∨ c = '-' ∨ c = '.' then
      let run := (c :: cs).takeWhile isWordChar
      let rest := (c :: cs).dropWhile isWordChar
      let kind :=
        if (⟨run⟩ : String) = "true" ∨ (⟨run⟩ : String) = "false" then TokKind.bool
        else if isNumericStr ⟨run⟩ && (⟨run⟩ : String) ≠ "" then TokKind.num
        else TokKind.ident
      ⟨kind, ⟨run⟩, line, col⟩ :: tokenizeAux fuel rest line (col + run.length)
    else
      let run := (c :: cs).takeWhile (fun d => !isDelimiter d)
      let rest := (c :: cs).dropWhile (fun d => !isDelimiter d)
      if run ≠ [] then
        ⟨.ident, ⟨run⟩, line, col⟩ :: tokenizeAux fuel rest line (col + run.length)
      else
        tokenizeAux fuel rest line (col + run.length)

/-- `tokenize` (source lines 81-285): starts at line 1, column 1. -/
def tokenize (content : String) : List Token :=
  tokenizeAux (content.data.length + 1) content.data 1 1

/-! ### Parser (source lines 295-485) -/

/-- Parse error: the thrown `Error`, split into its message prefix and
the offending token's line/column (the source embeds all three in one
string). -/
structure PError where
  message : String
  line : Nat
  column : Nat
deriving DecidableEq

/-- Message of the property-missing-`=` fatal error (source line 396). -/
def eqErrMsg : String := "Expected = after property name"

/-- Message of the unmatched-brace fatal error (source line 442). -/
def braceErrMsg : String := "Expected \x7d after block content"

/-- Artificial marker for fuel exhaustion; `parseRootT_no_fuel_error`
proves the fuel chosen by `parse` never reaches it. -/
def fuelErrMsg : String := "recursion fuel exhausted"

/-- `peek()` (source lines 472-474); a stream from `tokenize` is never
empty, the `[]` fallback is unreachable from `parse`. -/
def peekT : List Token → Token
  | [] => ⟨.eof, "", 0, 0⟩
  | t :: _ => t

/-- `isAtEnd()` (source lines 468-470). -/
def isAtEndT (ts : List Token) : Bool :=
  (peekT ts).kind == .eof

/-- `check(type)` (source lines 458-461). -/
def checkT (ts : List Token) (k : TokKind) : Bool :=
  !isAtEndT ts && ((peekT ts).kind == k)

/-- `advance()` (source lines 463-466): consumed token and rest. -/
def advanceT (ts : List Token) : Token × List Token :=
  if isAtEndT ts then (peekT ts, ts) else (peekT ts, ts.tail)

/-- `skipNewlines()` (source lines 452-456). -/
def skipNewlinesT (ts : List Token) : List Token :=
  ts.dropWhile (fun t => t.kind == .newline)

/-- `consume(type, message)` (source lines 480-485). -/
def consumeT (ts : List Token) (k : TokKind) (message : String) :
    Except PError (Token × List Token) :=
  if checkT ts k then .ok (advanceT ts)
  else .error ⟨message, (peekT ts).line, (peekT ts).column⟩

/-- The best-effort value of `parseProperty` (source lines 401-410). -/
def parseValueT (ts : List Token) : Value × List Token :=
  if checkT ts .str then (.str (peekT ts).value, ts.tail)
  else if checkT ts .num then (.num (peekT ts).value, ts.tail)
  else if checkT ts .bool then (.bool ((peekT ts).value == "true"), ts.tail)
  else if checkT ts .ident then (.str (peekT ts).value, ts.tail)
  else (.str "", ts)

/-- The optional trailing inline comment (source lines 412-415). -/
def parseInlineCommentT (ts : List Token) : Option String × List Token :=
  if checkT ts .comment then (some (peekT ts).value, ts.tail)
  else (none, ts)

/-- `parseProperty` (source lines 395-424): fatal when the identifier is
not followed by `=`; then a best-effort value and an optional inline
comment token. -/
def parsePropertyT (keyToken : Token) (ts : List Token) :
    Except PError (Node × List Token) :=
  match consumeT ts .eq eqErrMsg with
  | .error e => .error e
  | .ok (_, ts1) =>
    let vr := parseValueT ts1
    let cr := parseInlineCommentT vr.2
    .ok (.property keyToken.value vr.1 cr.1 (keyToken.line : Int), cr.2)

mutual

/-- `parseStatement` (source lines 315-327). -/
def parseStatementT : Nat → List Token → Except PError (Option Node × List Token)
  | 0, _ => .error ⟨fuelErrMsg, 0, 0⟩
  | fuel + 1, ts =>
    if checkT ts .comment then
      match consumeT ts .comment "Expected comment" with
      | .error e => .error e
      | .ok (tok, ts') => .ok (some (parseCommentOrCommentedProperty tok), ts')
    else if checkT ts .ident then
      parsePropertyOrBlockT fuel ts
    else
      .ok (none, (advanceT ts).2)

/-- `parsePropertyOrBlock` (source lines 385-393). -/
def parsePropertyOrBlockT : Nat → List Token → Except PError (Option Node × List Token)
  | 0, _ => .error ⟨fuelErrMsg, 0, 0⟩
  | fuel + 1, ts =>
    match consumeT ts .ident "Expected identifier" with
    | .error e => .error e
    | .ok (nameToken, ts') =>
      if checkT ts' .lbrace then
        parseBlockT fuel nameToken ts'
      else
        match parsePropertyT nameToken ts' with
        | .error e => .error e
        | .ok (n, ts'') => .ok (some n, ts'')

/-- `parseBlock` (source lines 426-450). -/
def parseBlockT : Nat → Token → List Token → Except PError (Option Node × List Token)
  | 0, _, _ => .error ⟨fuelErrMsg, 0, 0⟩
  | fuel + 1, nameToken, ts =>
    match consumeT ts .lbrace "Expected \x7b after block name" with
    | .error e => .error e
    | .ok (_, ts') =>
      match parseBlockBodyT fuel ts' with
      | .error e => .error e
      | .ok (children, ts'') =>
        match consumeT ts'' .rbrace braceErrMsg with
        | .error e => .error e
        | .ok (_, ts3) =>
          .ok (some (.block nameToken.value children (nameToken.line : Int)), ts3)

/-- The statement loop of `parseBlock` (source lines 431-440). -/
def parseBlockBodyT : Nat → List Token → Except PError (List Node × List Token)
  | 0, _ => .error ⟨fuelErrMsg, 0, 0⟩
  | fuel + 1, ts =>
    if !checkT ts .rbrace && !isAtEndT ts then
      let ts1 := skipNewlinesT ts
      if checkT ts1 .rbrace then .ok ([], ts1)
      else
        match parseStatementT fuel ts1 with
        | .error e => .error e
        | .ok (node?, ts2) =>
          match parseBlockBodyT fuel ts2 with
          | .error e => .error e
          | .ok (ns, ts3) => .ok (node?.toList ++ ns, ts3)
    else .ok ([], ts)

end

/-- `parseRoot` (source lines 295-313). -/
def parseRootT : Nat → List Token → Except PError (List Node)
  | 0, _ => .error ⟨fuelErrMsg, 0, 0⟩
  | fuel + 1, ts =>
    if !isAtEndT ts then
      let ts1 := skipNewlinesT ts
      if isAtEndT ts1 then .ok []
      else
        match parseStatementT fuel ts1 with
        | .error e => .error e
        | .ok (node?, ts2) =>
          match parseRootT fuel ts2 with
          | .error e => .error e
          | .ok ns => .ok (node?.toList ++ ns)
    else .ok []

/-- Fuel sufficient for any token stream (see
`parseRootT_no_fuel_error`). -/
def parseFuel (ts : List Token) : Nat := 2 * ts.length + 2

/-- `parse` (source lines 67-79): tokenize, then parse the root. -/
def parse (content : String) : Except PError (List Node) :=
  let ts := tokenize content
  parseRootT (parseFuel ts) ts

/-! ### Serializer (source lines 487-519) -/

/-- String interpolation of a JS value.  A retained numeric keeps its
source text (see the module comment: no verified property depends on
IEEE-754 re-formatting of numbers). -/
def valueToString : Value → String
  | .str s => s
  | .num raw => raw
  | .bool true => "true"
  | .bool false => "false"

/-- `'  '.repeat(indent)` (source line 488). -/
def indentStr (indent : Nat) : String := ⟨List.replicate (2 * indent) ' '⟩

/-- JS truthiness of `node.comment`: `undefined` and `""` are falsy. -/
def commentTruthy : Option String → Bool
  | none => false
  | some c => c ≠ ""

mutual

/-- Size of a node: fuel bound for the serializer recursion. -/
def nodeSize : Node → Nat
  | .comment _ _ => 1
  | .property _ _ _ _ => 1
  | .commentedProperty _ _ _ _ => 1
  | .block _ children _ => 1 + nodesSize children

/-- Size of a node list. -/
def nodesSize : List Node → Nat
  | [] => 1
  | n :: ns => 1 + nodeSize n + nodesSize ns

end

/-- ` # ${comment}` when preservation is on and the comment is truthy
(source lines 501, 505). -/
def commentSuffix (preserveComments : Bool) (comment : Option String) : String :=
  if preserveComments && commentTruthy comment then " # " ++ comment.getD ""
  else ""

mutual

/-- `serializeNode` (source lines 487-519), fueled so the recursion is
structural; `nodeSize` fuel always suffices
(`serializeNodeF_sufficient`). -/
def serializeNodeF : Nat → Node → Nat → Bool → Option String
  | 0, _, _, _ => none
  | _ + 1, .comment content _, indent, preserveComments =>
    some (if preserveComments then indentStr indent ++ "# " ++ content else "")
  | _ + 1, .property key v comment _, indent, preserveComments =>
    some (indentStr indent ++ key ++ " = " ++ valueToString v ++
      commentSuffix preserveComments comment)
  | _ + 1, .commentedProperty key v comment _, indent, preserveComments =>
    some (indentStr indent ++ "# " ++ key ++ " = " ++ valueToString v ++
      commentSuffix preserveComments comment)
  | fuel + 1, .block name children _, indent, preserveComments =>
    match serializeListF fuel children (indent + 1) preserveComments with
    | none => none
    | some parts =>
      some (indentStr indent ++ name ++ " \x7b\n" ++
        String.intercalate "\n" (parts.filter (· ≠ "")) ++ "\n" ++
        indentStr indent ++ "\x7d")

/-- Children renderings of a block, in order. -/
def serializeListF : Nat → List Node → Nat → Bool → Option (List String)
  | 0, _, _, _ => none
  | _ + 1, [], _, _ => some []
  | fuel + 1, n :: ns, indent, preserveComments =>
    match serializeNodeF fuel n indent preserveComments,
        serializeListF fuel ns indent preserveComments with
    | some s, some ss => some (s :: ss)
    | _, _ => none

end

/-- The `'root'` case of `serializeNode` (source lines 491-495): join the
non-empty child renderings with newlines and append a trailing one. -/
def serializeConfigF (fuel : Nat) (config : List Node) (preserveComments : Bool) :
    Option String :=
  match serializeListF fuel config 0 preserveComments with
  | none => none
  | some parts =>
    some (String.intercalate "\n" (parts.filter (· ≠ "")) ++ "\n")

/-- `serialize` (source lines 72-74): `nodesSize` fuel always suffices
(`serializeConfigF_sufficient`). -/
def serialize (config : List Node) (preserveComments : Bool) : String :=
  (serializeConfigF (nodesSize config) config preserveComments).getD ""

/-! ### Tokenizer lemmas -/

theorem cons_ends_eof {t : Token} {rec : List Token}
    (h : ∃ ts l c, rec = ts ++ [⟨.eof, "", l, c⟩]) :
    ∃ ts l c, t :: rec = ts ++ [⟨.eof, "", l, c⟩] := by
  obtain ⟨ts, l, c, h⟩ := h
  exact ⟨t :: ts, l, c, by rw [h]; rfl⟩

theorem scanString_rest_length_le (quote : Char) :
    ∀ (k : Nat) (cs : List Char), cs.length ≤ k → ∀ (line col : Nat),
      (scanString quote cs line col).2.1.length ≤ cs.length := by
  intro k
  induction k with
  | zero =>
    intro cs hlen line col
    have h0 : cs = [] := List.length_eq_zero.mp (Nat.le_zero.mp hlen)
    subst h0
    simp [scanString.eq_def]
  | succ k ih =>
    intro cs hlen line col
    match cs with
    | [] => simp [scanString.eq_def]
    | c :: cs =>
      rw [scanString.eq_def]
      dsimp only
      split_ifs with hq hb hnl
      · dsimp only
        simp only [List.length_cons]
        omega
      · cases cs with
        | nil => simp
        | cons x cs' =>
          have hlen'' : cs'.length ≤ k := by
            simp at hlen
            omega
          dsimp only
          by_cases hx : x = '\n'
          · rw [if_pos hx]
            have h1 := ih cs' hlen'' (line + 1) 1
            simp
            omega
          · rw [if_neg hx]
            have h1 := ih cs' hlen'' line (col + 2)
            simp
            omega
      · have hlen' : cs.length ≤ k := by
          simp at hlen
          omega
        have h1 := ih cs hlen' (line + 1) 1
        simp only [List.length_cons]
        omega
      · have hlen' : cs.length ≤ k := by
          simp at hlen
          omega
        have h1 := ih cs hlen' line (col + 1)
        dsimp only
        simp only [List.length_cons]
        omega

/-- Entry characters of an identifier run satisfy the continuation
class. -/
theorem wordEntry_isWordChar {c : Char}
    (h : isAlphaNumericChar c = true ∨ c = '-' ∨ c = '.') : isWordChar c = true := by
  rcases h with h | h | h <;> simp [isWordChar, h]

/-- A character rejected by all earlier tokenizer branches is not a
delimiter. -/
theorem nonDelim_of_branch_conds {c : Char}
    (h1 : ¬(c = ' ' ∨ c = '\t' ∨ c = '\r')) (h2 : c ≠ '\n') (h3 : c ≠ '#')
    (h4 : c ≠ '\x7b') (h5 : c ≠ '\x7d') (h6 : c ≠ '=') : isDelimiter c = false := by
  simp only [not_or] at h1
  simp [isDelimiter, h1.1, h1.2.1, h1.2.2, h2, h3, h4, h5, h6]

/-- The token stream ends with an end-of-input token. -/
def tokensEndEof (ts : List Token) : Prop :=
  ∃ (ts0 : List Token) (l c : Nat), ts = ts0 ++ [⟨.eof, "", l, c⟩]

theorem tokensEndEof_cons {t : Token} {rec : List Token}
    (h : tokensEndEof rec) : tokensEndEof (t :: rec) := by
  obtain ⟨ts0, l, c, h⟩ := h
  exact ⟨t :: ts0, l, c, by rw [h]; rfl⟩

set_option maxHeartbeats 1000000 in
theorem tokenizeAux_ends_eof :
    ∀ (fuel : Nat) (cs : List Char) (line col : Nat),
      tokensEndEof (tokenizeAux fuel cs line col) := by
  intro fuel
  induction fuel with
  | zero => intro cs line col; exact ⟨[], line, col, rfl⟩
  | succ fuel ih =>
    intro cs line col
    match cs with
    | [] => exact ⟨[], line, col, rfl⟩
    | c :: cs =>
      rw [tokenizeAux.eq_def]
      dsimp only
      split_ifs
      all_goals first
        | exact ih _ _ _
        | exact tokensEndEof_cons (ih _ _ _)

set_option maxHeartbeats 1000000 in
theorem tokenizeAux_length_le :
    ∀ (fuel : Nat) (cs : List Char) (line col : Nat),
      (tokenizeAux fuel cs line col).length ≤ cs.length + 1 := by
  intro fuel
  induction fuel with
  | zero => intro cs line col; simp [tokenizeAux]
  | succ fuel ih =>
    intro cs line col
    match cs with
    | [] => simp [tokenizeAux]
    | c :: cs =>
      rw [tokenizeAux.eq_def]
      dsimp only
      by_cases h1 : c = ' ' ∨ c = '\t' ∨ c = '\r'
      · rw [if_pos h1]
        have := ih cs line (col + 1)
        simp only [List.length_cons]
        omega
      · rw [if_neg h1]
        by_cases h2 : c = '\n'
        · rw [if_pos h2]
          have := ih cs (line + 1) 1
          simp only [List.length_cons]
          omega
        · rw [if_neg h2]
          by_cases h3 : c = '#'
          · rw [if_pos h3]
            have hrest : (cs.dropWhile (· != '\n')).length ≤ cs.length :=
              (List.dropWhile_sublist _).length_le
            have := ih (cs.dropWhile (· != '\n')) line
              (col + (cs.takeWhile (· != '\n')).length + 1)
            simp only [List.length_cons]
            omega
          · rw [if_neg h3]
            by_cases h4 : c = '\x7b'
            · rw [if_pos h4]
              have := ih cs line (col + 1)
              simp only [List.length_cons]
              omega
            · rw [if_neg h4]
              by_cases h5 : c = '\x7d'
              · rw [if_pos h5]
                have := ih cs line (col + 1)
                simp only [List.length_cons]
                omega
              · rw [if_neg h5]
                by_cases h6 : c = '='
                · rw [if_pos h6]
                  have := ih cs line (col + 1)
                  simp only [List.length_cons]
                  omega
                · rw [if_neg h6]
                  by_cases h7 : c = '"' ∨ c = '\''
                  · rw [if_pos h7]
                    have hrest := scanString_rest_length_le c cs.length cs le_rfl line (col + 1)
                    have := ih (scanString c cs line (col + 1)).2.1
                      (scanString c cs line (col + 1)).2.2.1
                      (scanString c cs line (col + 1)).2.2.2
                    simp only [List.length_cons]
                    omega
                  · rw [if_neg h7]
                    by_cases h8 : isAlphaNumericChar c = true ∨ c = '-' ∨ c = '.'
                    · rw [if_pos h8]
                      have hpos : isWordChar c = true := wordEntry_isWordChar h8
                      have hrest : ((c :: cs).dropWhile isWordChar).length ≤ cs.length := by
                        rw [List.dropWhile_cons_of_pos hpos]
                        exact (List.dropWhile_sublist _).length_le
                      have := ih ((c :: cs).dropWhile isWordChar) line
                        (col + ((c :: cs).takeWhile isWordChar).length)
                      simp only [List.length_cons]
                      omega
                    · rw [if_neg h8]
                      have hnd : isDelimiter c = false :=
                        nonDelim_of_branch_conds h1 h2 h3 h4 h5 h6
                      have hposd : (!isDelimiter c) = true := by simp [hnd]
                      have hdw : (c :: cs).dropWhile (fun d => !isDelimiter d)
                          = cs.dropWhile (fun d => !isDelimiter d) := by
                        rw [List.dropWhile_cons]
                        simp [hnd]
                      have hrest : ((c :: cs).dropWhile (fun d => !isDelimiter d)).length
                          ≤ cs.length := by
                        rw [hdw]
                        exact (List.dropWhile_sublist _).length_le
                      have := ih ((c :: cs).dropWhile (fun d => !isDelimiter d)) line
                        (col + ((c :: cs).takeWhile (fun d => !isDelimiter d)).length)
                      by_cases hr : (c :: cs).takeWhile (fun d => !isDelimiter d) ≠ []
                      · rw [if_pos hr]
                        simp only [List.length_cons]
                        omega
                      · rw [if_neg hr]
                        simp only [List.length_cons]
                        omega

set_option maxHeartbeats 1600000 in
/-- Tokenization "consumes the whole source": any fuel beyond the input
length yields the same token stream (the run always terminates within
`length + 1` steps). -/
theorem tokenizeAux_fuel_irrelevant :
    ∀ (k : Nat) (cs : List Char), cs.length ≤ k →
      ∀ (n m line col : Nat), cs.length < n → cs.length < m →
        tokenizeAux n cs line col = tokenizeAux m cs line col := by
  intro k
  induction k with
  | zero =>
    intro cs hlen n m line col hn hm
    have h0 : cs = [] := List.length_eq_zero.mp (Nat.le_zero.mp hlen)
    subst h0
    match n, m with
    | n + 1, m + 1 => rfl
  | succ k ih =>
    intro cs hlen n m line col hn hm
    match cs with
    | [] =>
      match n, m with
      | n + 1, m + 1 => rfl
    | c :: cs =>
      match n, m, hn, hm with
      | n + 1, m + 1, hn, hm =>
        have hlen' : cs.length ≤ k := by
          simp at hlen
          omega
        have hcn : cs.length < n := by
          simp at hn
          omega
        have hcm : cs.length < m := by
          simp at hm
          omega
        conv_lhs => rw [tokenizeAux.eq_def]
        conv_rhs => rw [tokenizeAux.eq_def]
        dsimp only
        by_cases h1 : c = ' ' ∨ c = '\t' ∨ c = '\r'
        · rw [if_pos h1, if_pos h1]
          exact ih cs hlen' n m line (col + 1) hcn hcm
        · rw [if_neg h1, if_neg h1]
          by_cases h2 : c = '\n'
          · rw [if_pos h2, if_pos h2]
            rw [ih cs hlen' n m (line + 1) 1 hcn hcm]
          · rw [if_neg h2, if_neg h2]
            by_cases h3 : c = '#'
            · rw [if_pos h3, if_pos h3]
              have hrest : (cs.dropWhile (· != '\n')).length ≤ cs.length :=
                (List.dropWhile_sublist _).length_le
              rw [ih (cs.dropWhile (· != '\n'))
                (le_trans hrest hlen') n m line
                (col + (cs.takeWhile (· != '\n')).length + 1)
                (by omega) (by omega)]
            · rw [if_neg h3, if_neg h3]
              by_cases h4 : c = '\x7b'
              · rw [if_pos h4, if_pos h4]
                rw [ih cs hlen' n m line (col + 1) hcn hcm]
              · rw [if_neg h4, if_neg h4]
                by_cases h5 : c = '\x7d'
                · rw [if_pos h5, if_pos h5]
                  rw [ih cs hlen' n m line (col + 1) hcn hcm]
                · rw [if_neg h5, if_neg h5]
                  by_cases h6 : c = '='
                  · rw [if_pos h6, if_pos h6]
                    rw [ih cs hlen' n m line (col + 1) hcn hcm]
                  · rw [if_neg h6, if_neg h6]
                    by_cases h7 : c = '"' ∨ c = '\''
                    · rw [if_pos h7, if_pos h7]
                      have hrest := scanString_rest_length_le c cs.length cs le_rfl
                        line (col + 1)
                      rw [ih (scanString c cs line (col + 1)).2.1
                        (le_trans hrest hlen') n m
                        (scanString c cs line (col + 1)).2.2.1
                        (scanString c cs line (col + 1)).2.2.2
                        (by omega) (by omega)]
                    · rw [if_neg h7, if_neg h7]
                      by_cases h8 : isAlphaNumericChar c = true ∨ c = '-' ∨ c = '.'
                      · rw [if_pos h8, if_pos h8]
                        have hpos : isWordChar c = true := wordEntry_isWordChar h8
                        have hrest : ((c :: cs).dropWhile isWordChar).length ≤ cs.length := by
                          rw [List.dropWhile_cons_of_pos hpos]
                          exact (List.dropWhile_sublist _).length_le
                        rw [ih ((c :: cs).dropWhile isWordChar)
                          (le_trans hrest hlen') n m line
                          (col + ((c :: cs).takeWhile isWordChar).length)
                          (by omega) (by omega)]
                      · rw [if_neg h8, if_neg h8]
                        have hnd : isDelimiter c = false :=
                          nonDelim_of_branch_conds h1 h2 h3 h4 h5 h6
                        have hdw : (c :: cs).dropWhile (fun d => !isDelimiter d)
                            = cs.dropWhile (fun d => !isDelimiter d) := by
                          rw [List.dropWhile_cons]
                          simp [hnd]
                        have hrest : ((c :: cs).dropWhile (fun d => !isDelimiter d)).length
                            ≤ cs.length := by
                          rw [hdw]
                          exact (List.dropWhile_sublist _).length_le
                        by_cases hr : (c :: cs).takeWhile (fun d => !isDelimiter d) ≠ []
                        · rw [if_pos hr, if_pos hr]
                          rw [ih ((c :: cs).dropWhile (fun d => !isDelimiter d))
                            (le_trans hrest hlen') n m line
                            (col + ((c :: cs).takeWhile (fun d => !isDelimiter d)).length)
                            (by omega) (by omega)]
                        · rw [if_neg hr, if_neg hr]
                          exact ih ((c :: cs).dropWhile (fun d => !isDelimiter d))
                            (le_trans hrest hlen') n m line
                            (col + ((c :: cs).takeWhile (fun d => !isDelimiter d)).length)
                            (by omega) (by omega)

/-! ### Parser stream lemmas -/

theorem tokensEndEof_ne_nil {ts : List Token} (h : tokensEndEof ts) : ts ≠ [] := by
  obtain ⟨ts0, l, c, rfl⟩ := h
  simp

theorem tokensEndEof_tail {t : Token} {ts : List Token}
    (h : tokensEndEof (t :: ts)) (ht : t.kind ≠ .eof) : tokensEndEof ts := by
  obtain ⟨ts0, l, c, heq⟩ := h
  cases ts0 with
  | nil =>
    simp at heq
    rw [heq.1] at ht
    simp at ht
  | cons u ts0' =>
    simp at heq
    exact ⟨ts0', l, c, heq.2⟩

theorem peekT_mem {ts : List Token} (h : ts ≠ []) : peekT ts ∈ ts := by
  cases ts with
  | nil => exact absurd rfl h
  | cons t rest => simp [peekT]

theorem checkT_isAtEnd_false {ts : List Token} {k : TokKind}
    (h : checkT ts k = true) : isAtEndT ts = false := by
  unfold checkT at h
  cases hq : isAtEndT ts with
  | false => rfl
  | true => rw [hq] at h; simp at h

theorem isAtEndT_false_head {ts : List Token} (h : isAtEndT ts = false) :
    ts ≠ [] ∧ (peekT ts).kind ≠ .eof := by
  cases ts with
  | nil => simp [isAtEndT, peekT] at h
  | cons t rest =>
    refine ⟨by simp, ?_⟩
    unfold isAtEndT peekT at h
    simpa using h

/-- Length, membership and eof-termination are preserved along the
stream consumed by the parser. -/
def streamLe (ts' ts : List Token) : Prop :=
  ts'.length ≤ ts.length ∧ (∀ x ∈ ts', x ∈ ts) ∧
  (tokensEndEof ts → tokensEndEof ts')

theorem streamLe_refl (ts : List Token) : streamLe ts ts :=
  ⟨le_rfl, fun _ h => h, fun h => h⟩

theorem streamLe_trans {ts2 ts1 ts : List Token}
    (h2 : streamLe ts2 ts1) (h1 : streamLe ts1 ts) : streamLe ts2 ts :=
  ⟨le_trans h2.1 h1.1, fun x hx => h1.2.1 x (h2.2.1 x hx),
   fun h => h2.2.2 (h1.2.2 h)⟩

theorem streamLe_tail_of_not_end {ts : List Token} (h : isAtEndT ts = false) :
    streamLe ts.tail ts ∧ ts.tail.length < ts.length := by
  obtain ⟨hne, hk⟩ := isAtEndT_false_head h
  cases ts with
  | nil => exact absurd rfl hne
  | cons t rest =>
    refine ⟨⟨by simp, fun x hx => by simp at hx ⊢; exact Or.inr hx, ?_⟩, by simp⟩
    intro hend
    exact tokensEndEof_tail hend (by simpa [peekT] using hk)

theorem streamLe_skipNewlines (ts : List Token) : streamLe (skipNewlinesT ts) ts := by
  induction ts with
  | nil => exact streamLe_refl _
  | cons t rest ih =>
    by_cases hn : (t.kind == TokKind.newline) = true
    · have hstep : streamLe rest (t :: rest) := by
        refine ⟨by simp, fun x hx => by simp [hx], ?_⟩
        intro hend
        refine tokensEndEof_tail hend ?_
        intro hk
        rw [hk] at hn
        simp at hn
      have h1 : skipNewlinesT (t :: rest) = skipNewlinesT rest := by
        unfold skipNewlinesT
        rw [List.dropWhile_cons]
        simp [hn]
      rw [h1]
      exact streamLe_trans ih hstep
    · have h1 : skipNewlinesT (t :: rest) = t :: rest := by
        unfold skipNewlinesT
        rw [List.dropWhile_cons]
        simp [hn]
      rw [h1]
      exact streamLe_refl _

theorem skipNewlinesT_eq_or_lt (ts : List Token) :
    skipNewlinesT ts = ts ∨ (skipNewlinesT ts).length < ts.length := by
  cases ts with
  | nil => exact Or.inl rfl
  | cons t rest =>
    by_cases hn : (t.kind == TokKind.newline) = true
    · refine Or.inr ?_
      have h1 : skipNewlinesT (t :: rest) = skipNewlinesT rest := by
        unfold skipNewlinesT
        rw [List.dropWhile_cons]
        simp [hn]
      rw [h1]
      have := (streamLe_skipNewlines rest).1
      simp only [List.length_cons]
      omega
    · refine Or.inl ?_
      unfold skipNewlinesT
      rw [List.dropWhile_cons]
      simp [hn]

theorem consumeT_error {ts : List Token} {k : TokKind} {msg : String} {e : PError}
    (h : consumeT ts k msg = .error e) :
    e.message = msg ∧ e.line = (peekT ts).line ∧ e.column = (peekT ts).column := by
  unfold consumeT at h
  by_cases hc : checkT ts k = true
  · rw [if_pos hc] at h
    cases h
  · rw [if_neg hc] at h
    injection h with h
    subst h
    exact ⟨rfl, rfl, rfl⟩

theorem consumeT_ok {ts : List Token} {k : TokKind} {msg : String} {tok : Token}
    {ts' : List Token} (h : consumeT ts k msg = .ok (tok, ts')) :
    checkT ts k = true ∧ tok = peekT ts ∧ ts' = ts.tail ∧
    streamLe ts' ts ∧ ts'.length < ts.length := by
  unfold consumeT at h
  by_cases hc : checkT ts k = true
  · rw [if_pos hc] at h
    have hne := checkT_isAtEnd_false hc
    unfold advanceT at h
    rw [hne] at h
    simp at h
    obtain ⟨h1, h2⟩ := h
    subst h1
    subst h2
    have := streamLe_tail_of_not_end hne
    exact ⟨hc, rfl, rfl, this.1, this.2⟩
  · rw [if_neg hc] at h
    cases h

/-- Errors the recursive-descent parser can produce (fuel aside): one of
the two fatal messages, carrying the line and column of a token of the
stream. -/
def realErr (e : PError) (ts : List Token) : Prop :=
  (e.message = eqErrMsg ∨ e.message = braceErrMsg) ∧
  ∃ t ∈ ts, e.line = t.line ∧ e.column = t.column

theorem realErr_mono {e : PError} {ts' ts : List Token}
    (hsub : ∀ x ∈ ts', x ∈ ts) (h : realErr e ts') : realErr e ts := by
  obtain ⟨h1, t, ht, h2⟩ := h
  exact ⟨h1, t, hsub t ht, h2⟩

theorem parsePropertyT_error {keyToken : Token} {ts : List Token} {e : PError}
    (h : parsePropertyT keyToken ts = .error e) (hend : tokensEndEof ts) :
    realErr e ts := by
  unfold parsePropertyT at h
  cases hc : consumeT ts .eq eqErrMsg with
  | error e' =>
    rw [hc] at h
    injection h with h
    subst h
    obtain ⟨h1, h2, h3⟩ := consumeT_error hc
    exact ⟨Or.inl h1, peekT ts, peekT_mem (tokensEndEof_ne_nil hend), h2, h3⟩
  | ok p =>
    rw [hc] at h
    cases h

theorem parseValueT_streamLe (ts : List Token) : streamLe (parseValueT ts).2 ts := by
  unfold parseValueT
  split_ifs with h1 h2 h3 h4
  · exact (streamLe_tail_of_not_end (checkT_isAtEnd_false h1)).1
  · exact (streamLe_tail_of_not_end (checkT_isAtEnd_false h2)).1
  · exact (streamLe_tail_of_not_end (checkT_isAtEnd_false h3)).1
  · exact (streamLe_tail_of_not_end (checkT_isAtEnd_false h4)).1
  · exact streamLe_refl _

theorem parseInlineCommentT_streamLe (ts : List Token) :
    streamLe (parseInlineCommentT ts).2 ts := by
  unfold parseInlineCommentT
  split_ifs with h1
  · exact (streamLe_tail_of_not_end (checkT_isAtEnd_false h1)).1
  · exact streamLe_refl _

theorem parsePropertyT_ok {keyToken : Token} {ts : List Token} {n : Node}
    {ts' : List Token} (h : parsePropertyT keyToken ts = .ok (n, ts')) :
    streamLe ts' ts ∧ ts'.length < ts.length := by
  unfold parsePropertyT at h
  cases hc : consumeT ts .eq eqErrMsg with
  | error e' =>
    rw [hc] at h
    cases h
  | ok p =>
    obtain ⟨tok, ts1⟩ := p
    rw [hc] at h
    obtain ⟨_, _, _, hle1, hlt1⟩ := consumeT_ok hc
    dsimp only at h
    injection h with h
    have hts : ts' = (parseInlineCommentT (parseValueT ts1).2).2 := by
      have := congrArg Prod.snd h
      simpa using this.symm
    subst hts
    have hv := parseValueT_streamLe ts1
    have hcmt := parseInlineCommentT_streamLe (parseValueT ts1).2
    constructor
    · exact streamLe_trans (streamLe_trans hcmt hv) hle1
    · have := (streamLe_trans hcmt hv).1
      omega

/-! ### One-step unfolding lemmas for the parser -/

theorem parseStatementT_succ (fuel : Nat) (ts : List Token) :
    parseStatementT (fuel + 1) ts =
      (if checkT ts .comment then
        match consumeT ts .comment "Expected comment" with
        | .error e => .error e
        | .ok (tok, ts') => .ok (some (parseCommentOrCommentedProperty tok), ts')
      else if checkT ts .ident then
        parsePropertyOrBlockT fuel ts
      else
        .ok (none, (advanceT ts).2)) := rfl

theorem parsePropertyOrBlockT_succ (fuel : Nat) (ts : List Token) :
    parsePropertyOrBlockT (fuel + 1) ts =
      (match consumeT ts .ident "Expected identifier" with
       | .error e => .error e
       | .ok (nameToken, ts') =>
         if checkT ts' .lbrace then
           parseBlockT fuel nameToken ts'
         else
           match parsePropertyT nameToken ts' with
           | .error e => .error e
           | .ok (n, ts'') => .ok (some n, ts'')) := rfl

theorem parseBlockT_succ (fuel : Nat) (nameToken : Token) (ts : List Token) :
    parseBlockT (fuel + 1) nameToken ts =
      (match consumeT ts .lbrace "Expected \x7b after block name" with
       | .error e => .error e
       | .ok (_, ts') =>
         match parseBlockBodyT fuel ts' with
         | .error e => .error e
         | .ok (children, ts'') =>
           match consumeT ts'' .rbrace braceErrMsg with
           | .error e => .error e
           | .ok (_, ts3) =>
             .ok (some (.block nameToken.value children (nameToken.line : Int)), ts3)) := rfl

theorem parseBlockBodyT_succ (fuel : Nat) (ts : List Token) :
    parseBlockBodyT (fuel + 1) ts =
      (if !checkT ts .rbrace && !isAtEndT ts then
        if checkT (skipNewlinesT ts) .rbrace then .ok ([], skipNewlinesT ts)
        else
          match parseStatementT fuel (skipNewlinesT ts) with
          | .error e => .error e
          | .ok (node?, ts2) =>
            match parseBlockBodyT fuel ts2 with
            | .error e => .error e
            | .ok (ns, ts3) => .ok (node?.toList ++ ns, ts3)
      else .ok ([], ts)) := rfl

theorem parseRootT_succ (fuel : Nat) (ts : List Token) :
    parseRootT (fuel + 1) ts =
      (if !isAtEndT ts then
        if isAtEndT (skipNewlinesT ts) then .ok []
        else
          match parseStatementT fuel (skipNewlinesT ts) with
          | .error e => .error e
          | .ok (node?, ts2) =>
            match parseRootT fuel ts2 with
            | .error e => .error e
            | .ok ns => .ok (node?.toList ++ ns)
      else .ok []) := rfl

/-! ### Parser soundness packages -/

/-- Soundness of `parseStatement` at the given fuel. -/
def stmtOK (fuel : Nat) (ts : List Token) : Prop :=
  (∀ e, parseStatementT fuel ts = .error e → tokensEndEof ts → realErr e ts) ∧
  (∀ o ts', parseStatementT fuel ts = .ok (o, ts') →
    streamLe ts' ts ∧ (isAtEndT ts = false → ts'.length < ts.length))

/-- Soundness of `parsePropertyOrBlock`: only invoked when the current
token is an identifier. -/
def pobOK (fuel : Nat) (ts : List Token) : Prop :=
  checkT ts .ident = true →
  (∀ e, parsePropertyOrBlockT fuel ts = .error e → tokensEndEof ts → realErr e ts) ∧
  (∀ o ts', parsePropertyOrBlockT fuel ts = .ok (o, ts') →
    streamLe ts' ts ∧ ts'.length < ts.length)

/-- Soundness of `parseBlock`: only invoked when the current token is an
opening brace. -/
def blockOK (fuel : Nat) (tok : Token) (ts : List Token) : Prop :=
  checkT ts .lbrace = true →
  (∀ e, parseBlockT fuel tok ts = .error e → tokensEndEof ts → realErr e ts) ∧
  (∀ o ts', parseBlockT fuel tok ts = .ok (o, ts') → streamLe ts' ts)

/-- Soundness of the `parseBlock` statement loop. -/
def bodyOK (fuel : Nat) (ts : List Token) : Prop :=
  (∀ e, parseBlockBodyT fuel ts = .error e → tokensEndEof ts → realErr e ts) ∧
  (∀ ns ts', parseBlockBodyT fuel ts = .ok (ns, ts') → streamLe ts' ts)

/-- Soundness of `parseRoot`. -/
def rootOK (fuel : Nat) (ts : List Token) : Prop :=
  ∀ e, parseRootT fuel ts = .error e → tokensEndEof ts → realErr e ts

set_option maxHeartbeats 2000000 in
/-- Combined parser soundness: with the stated fuel budgets, every
result is an `ok` whose remaining stream shrinks appropriately, or one
of the two fatal errors carrying a real token position; the artificial
fuel marker is unreachable. -/
theorem parser_sound : ∀ (fuel : Nat),
    (∀ ts, 2 * ts.length + 1 ≤ fuel → stmtOK fuel ts) ∧
    (∀ ts, 2 * ts.length ≤ fuel → pobOK fuel ts) ∧
    (∀ tok ts, 2 * ts.length + 1 ≤ fuel → blockOK fuel tok ts) ∧
    (∀ ts, 2 * ts.length + 2 ≤ fuel → bodyOK fuel ts) ∧
    (∀ ts, 2 * ts.length + 2 ≤ fuel → rootOK fuel ts) := by
  intro fuel
  induction fuel with
  | zero =>
    refine ⟨?_, ?_, ?_, ?_, ?_⟩
    · intro ts h
      exact absurd h (by omega)
    · intro ts h
      have h0 : ts = [] := List.length_eq_zero.mp (by omega)
      subst h0
      intro hcheck
      exact absurd hcheck (by decide)
    · intro tok ts h
      exact absurd h (by omega)
    · intro ts h
      exact absurd h (by omega)
    · intro ts h
      exact absurd h (by omega)
  | succ fuel ih =>
    obtain ⟨ihstmt, ihpob, ihblock, ihbody, ihroot⟩ := ih
    refine ⟨?_, ?_, ?_, ?_, ?_⟩
    -- parseStatement
    · intro ts hfuel
      constructor
      · intro e he hend
        rw [parseStatementT_succ] at he
        by_cases hcm : checkT ts .comment = true
        · have hne := checkT_isAtEnd_false hcm
          have hcons : consumeT ts .comment "Expected comment" = .ok (peekT ts, ts.tail) := by
            simp [consumeT, advanceT, hcm, hne]
          rw [if_pos hcm, hcons] at he
          cases he
        · rw [if_neg hcm] at he
          by_cases hid : checkT ts .ident = true
          · rw [if_pos hid] at he
            exact (ihpob ts (by omega) hid).1 e he hend
          · rw [if_neg hid] at he
            cases he
      · intro o ts' hok
        rw [parseStatementT_succ] at hok
        by_cases hcm : checkT ts .comment = true
        · have hne := checkT_isAtEnd_false hcm
          have hcons : consumeT ts .comment "Expected comment" = .ok (peekT ts, ts.tail) := by
            simp [consumeT, advanceT, hcm, hne]
          rw [if_pos hcm, hcons] at hok
          injection hok with hok
          have h2 : ts.tail = ts' := by simpa using congrArg Prod.snd hok
          subst h2
          have hstep := streamLe_tail_of_not_end hne
          exact ⟨hstep.1, fun _ => hstep.2⟩
        · rw [if_neg hcm] at hok
          by_cases hid : checkT ts .ident = true
          · rw [if_pos hid] at hok
            have h := (ihpob ts (by omega) hid).2 o ts' hok
            exact ⟨h.1, fun _ => h.2⟩
          · rw [if_neg hid] at hok
            injection hok with hok
            have h2 : (advanceT ts).2 = ts' := by simpa using congrArg Prod.snd hok
            subst h2
            by_cases hend : isAtEndT ts = true
            · have hts : (advanceT ts).2 = ts := by simp [advanceT, hend]
              rw [hts]
              exact ⟨streamLe_refl _, fun hf => absurd hend (by simp [hf])⟩
            · have hne : isAtEndT ts = false := by simpa using hend
              have hts : (advanceT ts).2 = ts.tail := by simp [advanceT, hne]
              rw [hts]
              have hstep := streamLe_tail_of_not_end hne
              exact ⟨hstep.1, fun _ => hstep.2⟩
    -- parsePropertyOrBlock
    · intro ts hfuel hid
      have hne := checkT_isAtEnd_false hid
      have hcons : consumeT ts .ident "Expected identifier" = .ok (peekT ts, ts.tail) := by
        simp [consumeT, advanceT, hid, hne]
      have hstep := streamLe_tail_of_not_end hne
      have heval : parsePropertyOrBlockT (fuel + 1) ts =
          (if checkT ts.tail .lbrace then parseBlockT fuel (peekT ts) ts.tail
           else match parsePropertyT (peekT ts) ts.tail with
             | .error e => .error e
             | .ok (n, ts'') => .ok (some n, ts'')) := by
        rw [parsePropertyOrBlockT_succ, hcons]
      constructor
      · intro e he hend
        rw [heval] at he
        have hendtail : tokensEndEof ts.tail := hstep.1.2.2 hend
        by_cases hlb : checkT ts.tail .lbrace = true
        · rw [if_pos hlb] at he
          have h := (ihblock (peekT ts) ts.tail (by have := hstep.2; omega) hlb).1
            e he hendtail
          exact realErr_mono hstep.1.2.1 h
        · rw [if_neg hlb] at he
          cases hp : parsePropertyT (peekT ts) ts.tail with
          | error e' =>
            rw [hp] at he
            injection he with he
            subst he
            exact realErr_mono hstep.1.2.1 (parsePropertyT_error hp hendtail)
          | ok p =>
            obtain ⟨n, ts2⟩ := p
            rw [hp] at he
            cases he
      · intro o ts' hok
        rw [heval] at hok
        by_cases hlb : checkT ts.tail .lbrace = true
        · rw [if_pos hlb] at hok
          have h := (ihblock (peekT ts) ts.tail (by have := hstep.2; omega) hlb).2
            o ts' hok
          refine ⟨streamLe_trans h hstep.1, ?_⟩
          have h1 := h.1
          have h2 := hstep.2
          omega
        · rw [if_neg hlb] at hok
          cases hp : parsePropertyT (peekT ts) ts.tail with
          | error e' =>
            rw [hp] at hok
            cases hok
          | ok p =>
            obtain ⟨n, ts2⟩ := p
            rw [hp] at hok
            injection hok with hok
            have h2 : ts2 = ts' := by simpa using congrArg Prod.snd hok
            subst h2
            have h := parsePropertyT_ok hp
            refine ⟨streamLe_trans h.1 hstep.1, ?_⟩
            have h1 := h.2
            have h3 := hstep.2
            omega
    -- parseBlock
    · intro tok ts hfuel hlb
      have hne := checkT_isAtEnd_false hlb
      have hcons : consumeT ts .lbrace "Expected \x7b after block name" =
          .ok (peekT ts, ts.tail) := by
        simp [consumeT, advanceT, hlb, hne]
      have hstep := streamLe_tail_of_not_end hne
      have heval : parseBlockT (fuel + 1) tok ts =
          (match parseBlockBodyT fuel ts.tail with
           | .error e => .error e
           | .ok (children, ts2) =>
             match consumeT ts2 .rbrace braceErrMsg with
             | .error e => .error e
             | .ok (_, ts3) =>
               .ok (some (.block tok.value children (tok.line : Int)), ts3)) := by
        rw [parseBlockT_succ, hcons]
      constructor
      · intro e he hend
        rw [heval] at he
        have hendtail : tokensEndEof ts.tail := hstep.1.2.2 hend
        cases hb : parseBlockBodyT fuel ts.tail with
        | error e' =>
          rw [hb] at he
          injection he with he
          subst he
          have h := (ihbody ts.tail (by have := hstep.2; omega)).1 e' hb hendtail
          exact realErr_mono hstep.1.2.1 h
        | ok p =>
          obtain ⟨children, ts2⟩ := p
          rw [hb] at he
          dsimp only at he
          have hbody := (ihbody ts.tail (by have := hstep.2; omega)).2 children ts2 hb
          have hend2 : tokensEndEof ts2 := hbody.2.2 hendtail
          cases hc2 : consumeT ts2 .rbrace braceErrMsg with
          | error e' =>
            rw [hc2] at he
            injection he with he
            subst he
            obtain ⟨h1, h2, h3⟩ := consumeT_error hc2
            refine realErr_mono hstep.1.2.1 (realErr_mono hbody.2.1 ?_)
            exact ⟨Or.inr h1, peekT ts2, peekT_mem (tokensEndEof_ne_nil hend2), h2, h3⟩
          | ok q =>
            obtain ⟨tk, ts3⟩ := q
            rw [hc2] at he
            cases he
      · intro o ts' hok
        rw [heval] at hok
        cases hb : parseBlockBodyT fuel ts.tail with
        | error e' =>
          rw [hb] at hok
          cases hok
        | ok p =>
          obtain ⟨children, ts2⟩ := p
          rw [hb] at hok
          dsimp only at hok
          have hbody := (ihbody ts.tail (by have := hstep.2; omega)).2 children ts2 hb
          cases hc2 : consumeT ts2 .rbrace braceErrMsg with
          | error e' =>
            rw [hc2] at hok
            cases hok
          | ok q =>
            obtain ⟨tk, ts3⟩ := q
            rw [hc2] at hok
            injection hok with hok
            have h2 : ts3 = ts' := by simpa using congrArg Prod.snd hok
            subst h2
            obtain ⟨_, _, _, hle3, _⟩ := consumeT_ok hc2
            exact streamLe_trans (streamLe_trans hle3 hbody) hstep.1
    -- parseBlockBody
    · intro ts hfuel
      have heval := parseBlockBodyT_succ fuel ts
      by_cases hcond : (!checkT ts .rbrace && !isAtEndT ts) = true
      · rw [if_pos hcond] at heval
        have hskip := streamLe_skipNewlines ts
        have hne : isAtEndT ts = false := by
          cases hq : isAtEndT ts with
          | false => rfl
          | true =>
            rw [hq] at hcond
            simp at hcond
        by_cases hrb : checkT (skipNewlinesT ts) .rbrace = true
        · rw [if_pos hrb] at heval
          constructor
          · intro e he hend
            rw [heval] at he
            cases he
          · intro ns ts' hok
            rw [heval] at hok
            injection hok with hok
            have h2 : skipNewlinesT ts = ts' := by simpa using congrArg Prod.snd hok
            subst h2
            exact hskip
        · rw [if_neg hrb] at heval
          constructor
          · intro e he hend
            rw [heval] at he
            have hend1 : tokensEndEof (skipNewlinesT ts) := hskip.2.2 hend
            cases hs : parseStatementT fuel (skipNewlinesT ts) with
            | error e' =>
              rw [hs] at he
              injection he with he
              subst he
              have h := (ihstmt (skipNewlinesT ts) (by have := hskip.1; omega)).1
                e' hs hend1
              exact realErr_mono hskip.2.1 h
            | ok p =>
              obtain ⟨o, ts2⟩ := p
              rw [hs] at he
              dsimp only at he
              have hsok := (ihstmt (skipNewlinesT ts) (by have := hskip.1; omega)).2
                o ts2 hs
              have hlt : ts2.length < ts.length := by
                rcases skipNewlinesT_eq_or_lt ts with heq | hlt1
                · have hne1 : isAtEndT (skipNewlinesT ts) = false := by
                    rw [heq]
                    exact hne
                  have h3 := hsok.2 hne1
                  rw [heq] at h3
                  exact h3
                · have := hsok.1.1
                  omega
              cases hb2 : parseBlockBodyT fuel ts2 with
              | error e' =>
                rw [hb2] at he
                injection he with he
                subst he
                have hend2 := hsok.1.2.2 hend1
                have h := (ihbody ts2 (by omega)).1 e' hb2 hend2
                exact realErr_mono hskip.2.1 (realErr_mono hsok.1.2.1 h)
              | ok q =>
                obtain ⟨ns, ts3⟩ := q
                rw [hb2] at he
                cases he
          · intro ns ts' hok
            rw [heval] at hok
            cases hs : parseStatementT fuel (skipNewlinesT ts) with
            | error e' =>
              rw [hs] at hok
              cases hok
            | ok p =>
              obtain ⟨o, ts2⟩ := p
              rw [hs] at hok
              dsimp only at hok
              have hsok := (ihstmt (skipNewlinesT ts) (by have := hskip.1; omega)).2
                o ts2 hs
              have hlt : ts2.length < ts.length := by
                rcases skipNewlinesT_eq_or_lt ts with heq | hlt1
                · have hne1 : isAtEndT (skipNewlinesT ts) = false := by
                    rw [heq]
                    exact hne
                  have h3 := hsok.2 hne1
                  rw [heq] at h3
                  exact h3
                · have := hsok.1.1
                  omega
              cases hb2 : parseBlockBodyT fuel ts2 with
              | error e' =>
                rw [hb2] at hok
                cases hok
              | ok q =>
                obtain ⟨ns2, ts3⟩ := q
                rw [hb2] at hok
                injection hok with hok
                have h2 : ts3 = ts' := by simpa using congrArg Prod.snd hok
                subst h2
                have hb := (ihbody ts2 (by omega)).2 ns2 ts3 hb2
                exact streamLe_trans (streamLe_trans hb hsok.1) hskip
      · rw [if_neg hcond] at heval
        constructor
        · intro e he hend
          rw [heval] at he
          cases he
        · intro ns ts' hok
          rw [heval] at hok
          injection hok with hok
          have h2 : ts = ts' := by simpa using congrArg Prod.snd hok
          subst h2
          exact streamLe_refl _
    -- parseRoot
    · intro ts hfuel
      intro e he hend
      rw [parseRootT_succ] at he
      by_cases hcond : (!isAtEndT ts) = true
      · rw [if_pos hcond] at he
        have hskip := streamLe_skipNewlines ts
        by_cases hend1 : isAtEndT (skipNewlinesT ts) = true
        · rw [if_pos hend1] at he
          cases he
        · rw [if_neg hend1] at he
          have hne1 : isAtEndT (skipNewlinesT ts) = false := by simpa using hend1
          have hendq : tokensEndEof (skipNewlinesT ts) := hskip.2.2 hend
          cases hs : parseStatementT fuel (skipNewlinesT ts) with
          | error e' =>
            rw [hs] at he
            injection he with he
            subst he
            exact realErr_mono hskip.2.1
              ((ihstmt (skipNewlinesT ts) (by have := hskip.1; omega)).1 e' hs hendq)
          | ok p =>
            obtain ⟨o, ts2⟩ := p
            rw [hs] at he
            dsimp only at he
            have hsok := (ihstmt (skipNewlinesT ts) (by have := hskip.1; omega)).2
              o ts2 hs
            have hlt : ts2.length < ts.length := by
              have h3 := hsok.2 hne1
              have h4 := hskip.1
              omega
            cases hr : parseRootT fuel ts2 with
            | error e' =>
              rw [hr] at he
              injection he with he
              subst he
              have hend2 := hsok.1.2.2 hendq
              exact realErr_mono hskip.2.1 (realErr_mono hsok.1.2.1
                (ihroot ts2 (by omega) e' hr hend2))
            | ok ns =>
              rw [hr] at he
              cases he
      · rw [if_neg hcond] at he
        cases he

/-! ### Serializer totality -/

theorem nodeSize_pos (n : Node) : 1 ≤ nodeSize n := by
  cases n <;> simp [nodeSize]

theorem nodesSize_pos (l : List Node) : 1 ≤ nodesSize l := by
  cases l <;> simp [nodesSize] <;> omega

theorem serializeF_sufficient :
    ∀ (fuel : Nat),
      (∀ (n : Node) (ind : Nat) (pc : Bool), nodeSize n ≤ fuel →
        (serializeNodeF fuel n ind pc).isSome = true) ∧
      (∀ (l : List Node) (ind : Nat) (pc : Bool), nodesSize l ≤ fuel →
        (serializeListF fuel l ind pc).isSome = true) := by
  intro fuel
  induction fuel with
  | zero =>
    constructor
    · intro n ind pc h
      have := nodeSize_pos n
      omega
    · intro l ind pc h
      have := nodesSize_pos l
      omega
  | succ fuel ih =>
    constructor
    · intro n ind pc h
      cases n with
      | comment c l => simp [serializeNodeF]
      | property k v c l => simp [serializeNodeF]
      | commentedProperty k v c l => simp [serializeNodeF]
      | block name children l =>
        have hch : nodesSize children ≤ fuel := by
          simp [nodeSize] at h
          omega
        have hsome := ih.2 children (ind + 1) pc hch
        cases hl : serializeListF fuel children (ind + 1) pc with
        | none =>
          rw [hl] at hsome
          simp at hsome
        | some parts => simp [serializeNodeF, hl]
    · intro l ind pc h
      cases l with
      | nil => simp [serializeListF]
      | cons n ns =>
        have h1 : nodeSize n ≤ fuel := by
          simp [nodesSize] at h
          omega
        have h2 : nodesSize ns ≤ fuel := by
          simp [nodesSize] at h
          omega
        have hn := ih.1 n ind pc h1
        have hns := ih.2 ns ind pc h2
        cases he1 : serializeNodeF fuel n ind pc with
        | none =>
          rw [he1] at hn
          simp at hn
        | some s1 =>
          cases he2 : serializeListF fuel ns ind pc with
          | none =>
            rw [he2] at hns
            simp at hns
          | some ss => simp [serializeListF, he1, he2]

theorem serializeConfigF_total (config : List Node) (pc : Bool) :
    serializeConfigF (nodesSize config) config pc = some (serialize config pc) := by
  have h := (serializeF_sufficient (nodesSize config)).2 config 0 pc le_rfl
  cases hl : serializeListF (nodesSize config) config 0 pc with
  | none =>
    rw [hl] at h
    simp at h
  | some parts =>
    simp [serializeConfigF, hl, serialize]

/-! ### Claim theorems: parser pipeline -/

/-- C6: `parse` raises an error in exactly two cases — an identifier not
followed by `=` where a property was expected, and a block whose
opening brace has no matching closing one before end-of-input — each
error carrying a token's line and column; and parsing
`foo {\n  x = 1\n` (no closing brace) raises the unmatched-brace error
at the end-of-input position (line 3, column 1). -/
theorem C6_parse_error_cases :
    (∀ (s : String) (e : PError), parse s = .error e →
      (e.message = eqErrMsg ∨ e.message = braceErrMsg) ∧
      ∃ t ∈ tokenize s, e.line = t.line ∧ e.column = t.column) ∧
    parse "foo \x7b\n  x = 1\n" = .error ⟨braceErrMsg, 3, 1⟩ := by
  constructor
  · intro s e he
    have hend : tokensEndEof (tokenize s) := tokenizeAux_ends_eof _ _ _ _
    have hroot := (parser_sound (parseFuel (tokenize s))).2.2.2.2 (tokenize s)
      (by unfold parseFuel; omega)
    exact hroot e he hend
  · rfl

/-- C6 witness: `x` followed by a newline hits the missing-`=` error at
the newline token. -/
theorem C6_witness :
    ((⟨eqErrMsg, 1, 2⟩ : PError).message = eqErrMsg ∨
      (⟨eqErrMsg, 1, 2⟩ : PError).message = braceErrMsg) ∧
    ∃ t ∈ tokenize "x\n", (⟨eqErrMsg, 1, 2⟩ : PError).line = t.line ∧
      (⟨eqErrMsg, 1, 2⟩ : PError).column = t.column :=
  C6_parse_error_cases.1 "x\n" ⟨eqErrMsg, 1, 2⟩ rfl

/-- C8: the pipeline always terminates.  Tokenization produces an
eof-terminated stream of at most `length + 1` tokens and is independent
of any fuel beyond the input length (it consumes the whole source);
parsing with the budget `2·tokens + 2` never exhausts its fuel; and the
serializer succeeds within `nodesSize` steps of the tree. -/
theorem C8_pipeline_terminates :
    (∀ s : String, tokensEndEof (tokenize s)) ∧
    (∀ s : String, (tokenize s).length ≤ s.length + 1) ∧
    (∀ (s : String) (fuel : Nat), s.data.length < fuel →
      tokenizeAux fuel s.data 1 1 = tokenize s) ∧
    (∀ (s : String) (e : PError), parse s = .error e → e.message ≠ fuelErrMsg) ∧
    (∀ (config : List Node) (pc : Bool),
      serializeConfigF (nodesSize config) config pc = some (serialize config pc)) := by
  refine ⟨?_, ?_, ?_, ?_, serializeConfigF_total⟩
  · intro s
    exact tokenizeAux_ends_eof _ _ _ _
  · intro s
    exact tokenizeAux_length_le _ _ _ _
  · intro s fuel hf
    exact tokenizeAux_fuel_irrelevant s.data.length s.data le_rfl fuel
      (s.data.length + 1) 1 1 hf (by omega)
  · intro s e he
    have hend : tokensEndEof (tokenize s) := tokenizeAux_ends_eof _ _ _ _
    have hroot := (parser_sound (parseFuel (tokenize s))).2.2.2.2 (tokenize s)
      (by unfold parseFuel; omega)
    rcases (hroot e he hend).1 with h | h <;> rw [h] <;> decide

/-- C8 witness: more fuel than the input length changes nothing. -/
theorem C8_witness :
    tokenizeAux 10 ("x = 1" : String).data 1 1 = tokenize "x = 1" :=
  C8_pipeline_terminates.2.2.1 "x = 1" 10 (by decide)

/-- C1 (code bug): round-trip failure.  Parsing `x = "a b"` keeps the
quoted string value `a b`, but `serialize` re-emits it without quotes,
so re-parsing the serialized text raises the missing-`=` fatal error at
the stray `b` instead of producing a structurally equal tree; the
quoting information is lost, contradicting the stated lossless
round-trip guarantee. -/
theorem C1_roundtrip_failure :
    parse "x = \"a b\"\n" = .ok [Node.property "x" (.str "a b") none 1] ∧
    serialize [Node.property "x" (.str "a b") none 1] true = "x = a b\n" ∧
    parse "x = a b\n" = .error ⟨eqErrMsg, 1, 8⟩ :=
  ⟨rfl, rfl, rfl⟩

/-- C5 amended witness: the spec example line `# k = v # c`. -/
theorem C5_amended_witness :
    parseCommentedProperty { kind := .comment, value := "k = v # c", line := 3, column := 1 } =
      Node.commentedProperty
        ⟨jsTrimList (beforeFirst '=' (jsTrimList ("k = v # c" : String).data))⟩
        (coerceValue
          ⟨specValuePart (jsTrimList (betweenFirstTwo '=' (jsTrimList ("k = v # c" : String).data)))⟩)
        (specCommentPart (jsTrimList (betweenFirstTwo '=' (jsTrimList ("k = v # c" : String).data))))
        (3 : Int) :=
  C5_amended_split { kind := .comment, value := "k = v # c", line := 3, column := 1 }
    (by decide) (by decide)

end OmarchyGui
